import Mathlib

/-!
# Verification of the pi-nas acrylic-enclosure geometry generators

Shallow embedding, over exact rationals, of the geometry kernels of
`acrylic_enclosure/generate_panels.py` (the finger-joint outline builder
`finger_outline`, the top/bottom panel outline `tb_panel_outline`) and of
`acrylic_enclosure/nest_for_ponoko.py` (the SVG re-parser `parse_panel_svg`,
the rotation operators, and the DXF export stage of `svg_to_dxf`).

Python floats are modelled as exact rationals; the `f"{v:.3f}"` decimal
formatting used on path coordinates is modelled by round-half-even to three
decimals; the IEEE infinities used as bounding-box sentinels are modelled by
an extended-rational type `XQ`.
-/

namespace PiNas

/-- A 2-D point, an `(x, y)` pair of exact rationals (Python float tuples). -/
abbrev Pt := ℚ × ℚ

/-- `FINGER_WIDTH = 12.0` from generate_panels.py. -/
def FINGER_WIDTH : ℚ := 12

/-- `T_WALL = 3.0` from generate_panels.py (default finger depth). -/
def T_WALL : ℚ := 3

/-- Python 3 `round` to the nearest integer, ties to even (banker's
rounding), on an exact rational. -/
def pyRound (q : ℚ) : ℤ :=
  let f := ⌊q⌋
  let r := q - f
  if r < 1/2 then f
  else if 1/2 < r then f + 1
  else if f % 2 = 0 then f else f + 1

/-- `nfingers(length)` from `finger_outline`:
`n = max(3, round(length / FINGER_WIDTH))`, incremented to odd. -/
def nfingers (length : ℚ) : ℕ :=
  let n := (max 3 (pyRound (length / FINGER_WIDTH))).toNat
  if n % 2 = 0 then n + 1 else n

/-- Edge joint mode of `finger_outline`: `'flat'`, `'tab'`, `'outer_tab'`,
`'slot'`. -/
inductive Mode
  | flat
  | tab
  | outer_tab
  | slot
deriving DecidableEq, Repr

/-- `signed_depth(mode, d0)` from `finger_outline`: negative for `tab`
(recedes inward), positive for `outer_tab` / `slot`. -/
def sdepth (mode : Mode) (d0 : ℚ) : ℚ :=
  match mode with
  | .tab => -d0
  | .outer_tab => d0
  | .slot => d0
  | .flat => 0

/-- `is_finger(i, n, mode, skip_ends)` from `finger_outline`. -/
def is_finger (i n : ℕ) (mode : Mode) (skip_ends : Bool) : Bool :=
  if mode = .flat then false
  else if i % 2 ≠ 0 then false
  else if skip_ends = true ∧ (i = 0 ∨ i = n - 1) then false
  else true

/-- The de-duplication test of `finger_outline`'s clean-up loop: the point
`p` is kept when it differs from the last kept point `q` by more than the
`0.001` epsilon in either coordinate. -/
def farB (p q : Pt) : Bool :=
  decide (1/1000 < |p.1 - q.1| ∨ 1/1000 < |p.2 - q.2|)

/-- The clean-up loop body: walk the tail, keeping a point only when `farB`
from the last kept point (`last`). -/
def cleanAux (last : Pt) : List Pt → List Pt
  | [] => []
  | p :: rest => if farB p last then p :: cleanAux p rest else cleanAux last rest

/-- `clean = [pts[0]]; for p in pts[1:]: ... append when far` — the
consecutive-duplicate removal of `finger_outline` and `tb_panel_outline`. -/
def cleanPts : List Pt → List Pt
  | [] => []
  | p :: rest => p :: cleanAux p rest

/-- The final step of `finger_outline`: pop the last point when it coincides
with the first within the strict `0.001` epsilon (and the list has more than
one point). -/
def dropClosing (l : List Pt) : List Pt :=
  match l with
  | [] => []
  | p :: rest =>
    if 0 < rest.length ∧ |p.1 - ((p :: rest).getLastD p).1| < 1/1000 ∧
        |p.2 - ((p :: rest).getLastD p).2| < 1/1000 then
      (p :: rest).dropLast
    else p :: rest

/-- The argument record of `finger_outline(w, h, top, bottom, left, right,
depth, lr_depth, bot_depth, top_depth, skip_lr_ends)`; `none` models the
Python `None` defaults of the three specific depths. -/
structure FO where
  w : ℚ
  h : ℚ
  top : Mode
  bottom : Mode
  left : Mode
  right : Mode
  depth : ℚ
  lr_depth : Option ℚ
  bot_depth : Option ℚ
  top_depth : Option ℚ
  skip_lr_ends : Bool
deriving DecidableEq, Repr

namespace FO

/-- `if lr_depth is None: lr_depth = depth`. -/
def lrD (a : FO) : ℚ := a.lr_depth.getD a.depth

/-- `if bot_depth is None: bot_depth = depth`. -/
def botD (a : FO) : ℚ := a.bot_depth.getD a.depth

/-- `if top_depth is None: top_depth = depth`. -/
def topD (a : FO) : ℚ := a.top_depth.getD a.depth

/-- `n_w = nfingers(w)`. -/
def nw (a : FO) : ℕ := nfingers a.w

/-- `n_h = nfingers(h)`. -/
def nh (a : FO) : ℕ := nfingers a.h

/-- `fw_w = w / n_w`. -/
def fww (a : FO) : ℚ := a.w / (a.nw : ℚ)

/-- `fw_h = h / n_h`. -/
def fwh (a : FO) : ℚ := a.h / (a.nh : ℚ)

/-- `top_d`: corner depth where the top edge ends at TR (negated because the
top edge's inward direction is +y). -/
def top_d (a : FO) : ℚ :=
  if is_finger (a.nw - 1) a.nw a.top false then -(sdepth a.top a.topD) else 0

/-- `bot_d_start`: corner depth where the bottom edge starts at BR. -/
def bot_d_start (a : FO) : ℚ :=
  if is_finger 0 a.nw a.bottom false then sdepth a.bottom a.botD else 0

/-- `bot_d_end`: corner depth where the bottom edge ends at BL. -/
def bot_d_end (a : FO) : ℚ :=
  if is_finger (a.nw - 1) a.nw a.bottom false then sdepth a.bottom a.botD else 0

/-- `top_d_start`: corner depth where the top edge starts at TL. -/
def top_d_start (a : FO) : ℚ :=
  if is_finger 0 a.nw a.top false then -(sdepth a.top a.topD) else 0

/-- `right_start_y = top_d if top_d != 0 else 0`. -/
def right_start_y (a : FO) : ℚ := if a.top_d ≠ 0 then a.top_d else 0

/-- `right_end_y = h + bot_d_start if bot_d_start != 0 else h`. -/
def right_end_y (a : FO) : ℚ :=
  if a.bot_d_start ≠ 0 then a.h + a.bot_d_start else a.h

/-- `left_start_y = h + bot_d_end if bot_d_end != 0 else h`. -/
def left_start_y (a : FO) : ℚ :=
  if a.bot_d_end ≠ 0 then a.h + a.bot_d_end else a.h

/-- `left_end_y = top_d_start if top_d_start != 0 else 0`. -/
def left_end_y (a : FO) : ℚ := if a.top_d_start ≠ 0 then a.top_d_start else 0

/-- The points emitted by iteration `i` of the top-edge loop of
`finger_outline` (left to right, y = 0). -/
def topSeg (a : FO) (i : ℕ) : List Pt :=
  let x0 : ℚ := (i : ℚ) * a.fww
  let x1 : ℚ := ((i : ℚ) + 1) * a.fww
  if is_finger i a.nw a.top false then
    let d := -(sdepth a.top a.topD)
    (if i = 0 then [(x0, d)] else [(x0, 0), (x0, d)]) ++
      (if i = a.nw - 1 then [(x1, d)] else [(x1, d), (x1, 0)])
  else
    (if i = 0 ∧ a.top_d_start ≠ 0 then [] else [(x0, 0)]) ++ [(x1, 0)]

/-- The points emitted by iteration `i` of the right-edge loop of
`finger_outline` (top to bottom, x = w). -/
def rightSeg (a : FO) (i : ℕ) : List Pt :=
  let y0 : ℚ := (i : ℚ) * a.fwh
  let y1 : ℚ := ((i : ℚ) + 1) * a.fwh
  let y0a := if i = 0 then a.right_start_y else y0
  let y1a := if i = a.nh - 1 then a.right_end_y else y1
  if is_finger i a.nh a.right a.skip_lr_ends then
    let d := sdepth a.right a.lrD
    [(a.w, y0a), (a.w + d, y0a), (a.w + d, y1a), (a.w, y1a)]
  else [(a.w, y0a), (a.w, y1a)]

/-- The points emitted by iteration `i` of the bottom-edge loop of
`finger_outline` (right to left, y = h). -/
def botSeg (a : FO) (i : ℕ) : List Pt :=
  let x1 : ℚ := a.w - (i : ℚ) * a.fww
  let x0 : ℚ := a.w - ((i : ℚ) + 1) * a.fww
  if is_finger i a.nw a.bottom false then
    let d := sdepth a.bottom a.botD
    (if i = 0 then [(x1, a.h + d)] else [(x1, a.h), (x1, a.h + d)]) ++
      (if i = a.nw - 1 then [(x0, a.h + d)] else [(x0, a.h + d), (x0, a.h)])
  else [(x1, a.h), (x0, a.h)]

/-- The points emitted by iteration `i` of the left-edge loop of
`finger_outline` (bottom to top, x = 0). -/
def leftSeg (a : FO) (i : ℕ) : List Pt :=
  let y1 : ℚ := a.h - (i : ℚ) * a.fwh
  let y0 : ℚ := a.h - ((i : ℚ) + 1) * a.fwh
  let y1a := if i = 0 then a.left_start_y else y1
  let y0a := if i = a.nh - 1 then a.left_end_y else y0
  if is_finger i a.nh a.left a.skip_lr_ends then
    let d := sdepth a.left a.lrD
    [(0, y1a), (-d, y1a), (-d, y0a), (0, y0a)]
  else [(0, y1a), (0, y0a)]

/-- All points of the top-edge pass. -/
def topPts (a : FO) : List Pt := (List.range a.nw).flatMap a.topSeg

/-- All points of the right-edge pass. -/
def rightPts (a : FO) : List Pt := (List.range a.nh).flatMap a.rightSeg

/-- All points of the bottom-edge pass. -/
def botPts (a : FO) : List Pt := (List.range a.nw).flatMap a.botSeg

/-- All points of the left-edge pass. -/
def leftPts (a : FO) : List Pt := (List.range a.nh).flatMap a.leftSeg

/-- The raw point list `pts` of `finger_outline` before clean-up. -/
def rawPts (a : FO) : List Pt := a.topPts ++ a.rightPts ++ a.botPts ++ a.leftPts

end FO

/-- `finger_outline` from generate_panels.py: the cleaned clockwise outline
polygon. -/
def finger_outline (a : FO) : List Pt := dropClosing (cleanPts a.rawPts)

/-- The raw point list of `tb_panel_outline(w, h)`: finger protrusions of
depth `T_WALL` on the top and bottom edges (bottom traversed right-to-left),
straight left/right edges. -/
def tbRaw (w h : ℚ) : List Pt :=
  let n := nfingers w
  let fw : ℚ := w / (n : ℚ)
  ((List.range n).flatMap fun i =>
    let x0 : ℚ := (i : ℚ) * fw
    let x1 : ℚ := ((i : ℚ) + 1) * fw
    if i % 2 = 0 then [(x0, 0), (x0, -T_WALL), (x1, -T_WALL), (x1, 0)]
    else [(x0, 0), (x1, 0)]) ++
  [(w, 0), (w, h)] ++
  ((List.range n).flatMap fun k =>
    let i := n - 1 - k
    let x0 : ℚ := (i : ℚ) * fw
    let x1 : ℚ := ((i : ℚ) + 1) * fw
    if i % 2 = 0 then [(x1, h), (x1, h + T_WALL), (x0, h + T_WALL), (x0, h)]
    else [(x1, h), (x0, h)]) ++
  [(0, h), (0, 0)]

/-- `tb_panel_outline(w, h)` from generate_panels.py: the raw walk with
consecutive duplicates removed — and, unlike `finger_outline`, no removal of
a final point coinciding with the first. -/
def tb_panel_outline (w h : ℚ) : List Pt := cleanPts (tbRaw w h)

/-! ## nest_for_ponoko.py -/

/-- Stroke colour of an SVG element: `#ff0000` (cut), `#0000ff` (engrave),
or anything else (no stroke / unrecognized). -/
inductive Color
  | red
  | blue
  | other
deriving DecidableEq, Repr

/-- An SVG child element as nest_for_ponoko.py reads it: `rect` (with corner
radius `rx`, 0 when absent), `circle`, `path` (its `d`-string modelled as the
parsed coordinate list plus whether a `Z` token occurs), or `text`. -/
inductive Elem
  | rect (x y w h rx : ℚ) (stroke : Color)
  | circle (cx cy r : ℚ) (stroke : Color)
  | path (pts : List Pt) (z : Bool) (stroke : Color)
  | text
deriving DecidableEq, Repr

/-- `attribs.get("stroke","").lower() == "#0000ff"`. -/
def isEngrave : Elem → Bool
  | .rect _ _ _ _ _ s => s = Color.blue
  | .circle _ _ _ s => s = Color.blue
  | .path _ _ s => s = Color.blue
  | .text => false

/-- `_element_bbox(tag, attribs)`: `(min_x, min_y, max_x, max_y)`, `None` for
unknown tags or empty paths. -/
def elemBBox : Elem → Option (ℚ × ℚ × ℚ × ℚ)
  | .rect x y w h _ _ => some (x, y, x + w, y + h)
  | .circle cx cy r _ => some (cx - r, cy - r, cx + r, cy + r)
  | .path pts _ _ =>
    match pts with
    | [] => none
    | p :: rest =>
      some (rest.foldl
        (fun b c => (min b.1 c.1, min b.2.1 c.2, max b.2.2.1 c.1, max b.2.2.2 c.2))
        (p.1, p.2, p.1, p.2))
  | .text => none

/-- An extended rational modelling the Python floats `inf` / `-inf` used as
bounding-box fold sentinels (`min_x = min_y = inf`, `max_x = max_y = -inf`). -/
inductive XQ
  | ninf
  | fin (q : ℚ)
  | inf
deriving DecidableEq, Repr

/-- IEEE `min` on extended rationals. -/
def xmin : XQ → XQ → XQ
  | .ninf, _ => .ninf
  | _, .ninf => .ninf
  | .fin a, .fin b => .fin (min a b)
  | .inf, x => x
  | x, .inf => x

/-- IEEE `max` on extended rationals. -/
def xmax : XQ → XQ → XQ
  | .inf, _ => .inf
  | _, .inf => .inf
  | .fin a, .fin b => .fin (max a b)
  | .ninf, x => x
  | x, .ninf => x

/-- IEEE subtraction on extended rationals; the two same-sign infinity
differences (NaN in IEEE) never arise in `parse_panel_svg` because the min
and max accumulators are always updated together — mapped to `ninf` for
totality. -/
def xsub : XQ → XQ → XQ
  | .fin a, .fin b => .fin (a - b)
  | .ninf, .inf => .ninf
  | .ninf, .fin _ => .ninf
  | .ninf, .ninf => .ninf
  | .inf, .fin _ => .inf
  | .inf, .ninf => .inf
  | .inf, .inf => .ninf
  | .fin _, .inf => .ninf
  | .fin _, .ninf => .inf

/-- The bounding-box accumulator of `parse_panel_svg`'s element loop,
initialized to `min_x = min_y = inf`, `max_x = max_y = -inf`. -/
structure XBox where
  minx : XQ
  miny : XQ
  maxx : XQ
  maxy : XQ
deriving DecidableEq, Repr

/-- The sentinel-initialized accumulator. -/
def xboxInit : XBox := XBox.mk XQ.inf XQ.inf XQ.ninf XQ.ninf

/-- One iteration of `parse_panel_svg`'s loop, restricted to its bounding-box
effect: skip `text`; skip engrave elements when `keep_engrave` is false; skip
elements with no bbox; update min/max only for non-engrave (cut) elements. -/
def parseStep (keep : Bool) (s : XBox) (e : Elem) : XBox :=
  match e with
  | .text => s
  | _ =>
    if isEngrave e = true ∧ keep = false then s
    else
      match elemBBox e with
      | none => s
      | some b =>
        if isEngrave e = true then s
        else XBox.mk (xmin s.minx (.fin b.1)) (xmin s.miny (.fin b.2.1))
          (xmax s.maxx (.fin b.2.2.1)) (xmax s.maxy (.fin b.2.2.2))

/-- The `(content_w, content_h)` result of `parse_panel_svg(doc, keep_engrave)`
(lines 99–132): `content_w = max_x - min_x`, `content_h = max_y - min_y` over
the cut-only bounding-box fold. -/
def parse_panel_svg_dims (doc : List Elem) (keep : Bool) : XQ × XQ :=
  let s := doc.foldl (parseStep keep) xboxInit
  (xsub s.maxx s.minx, xsub s.maxy s.miny)

/-- Round-half-even to three decimals: the effect of the `f"{v:.3f}"`
formatting applied to path coordinates by the shift/rotate helpers. -/
def r3 (q : ℚ) : ℚ := ((pyRound (1000 * q) : ℚ)) / 1000

/-- `_rotate_elements_90cw(elements, orig_w, orig_h)`: maps `(x, y)` to
`(orig_h - y, x)`; rect width/height swap; path coordinates re-formatted to
three decimals; `orig_w` is accepted but unused, as in the source. -/
def rotate_elements_90cw (els : List Elem) (origW origH : ℚ) : List Elem :=
  els.map fun e =>
    match e with
    | .rect x y w h rx s => .rect (origH - y - h) x h w rx s
    | .circle cx cy r s => .circle (origH - cy) cx r s
    | .path pts z s => .path (pts.map fun p => (r3 (origH - p.2), r3 p.1)) z s
    | .text => .text

/-- `_rotate_elements_180(elements, orig_w, orig_h)`: maps `(x, y)` to
`(orig_w - x, orig_h - y)`; path coordinates re-formatted to three
decimals. -/
def rotate_elements_180 (els : List Elem) (origW origH : ℚ) : List Elem :=
  els.map fun e =>
    match e with
    | .rect x y w h rx s => .rect (origW - x - w) (origH - y - h) w h rx s
    | .circle cx cy r s => .circle (origW - cx) (origH - cy) r s
    | .path pts z s =>
      .path (pts.map fun p => (r3 (origW - p.1), r3 (origH - p.2))) z s
    | .text => .text

/-- The DXF output layer chosen from the stroke colour: blue goes to
`ENGRAVE`, red to `CUT`, anything else falls back to `CUT`. -/
inductive Layer
  | cut
  | engrave
deriving DecidableEq, Repr

/-- The layer classification of `svg_to_dxf`. -/
def elemLayer : Elem → Layer
  | .rect _ _ _ _ _ s => if s = Color.blue then .engrave else .cut
  | .circle _ _ _ s => if s = Color.blue then .engrave else .cut
  | .path _ _ s => if s = Color.blue then .engrave else .cut
  | .text => .cut

/-- A geometric entity collected by `svg_to_dxf` before writing. -/
inductive DxfEnt
  | circ (cx cy r : ℚ)
  | lw (pts : List Pt)
deriving DecidableEq, Repr

/-- `flip_y(y) = sheet_h - y` (SVG Y-down to DXF Y-up). -/
def flipY (sheetH y : ℚ) : ℚ := sheetH - y

/-- The entities `svg_to_dxf` collects for one SVG element: rects become
closed point loops (rounded rects approximated by corner-cut octagons), the
loop carrying an explicit duplicate closing point; circles keep centre and
radius; paths keep their parsed coordinates, appending a closing duplicate
when marked closed (`Z` present, or endpoints within the 0.01 tolerance)
while not already coincident. -/
def dxfEntitiesOf (sheetH : ℚ) (e : Elem) : List (Layer × DxfEnt) :=
  match e with
  | .text => []
  | .rect x y w h rx s =>
    if 0 < rx then
      [(elemLayer (.rect x y w h rx s), .lw
        [(x + rx, flipY sheetH y), (x + w - rx, flipY sheetH y),
         (x + w, flipY sheetH (y + rx)), (x + w, flipY sheetH (y + h - rx)),
         (x + w - rx, flipY sheetH (y + h)), (x + rx, flipY sheetH (y + h)),
         (x, flipY sheetH (y + h - rx)), (x, flipY sheetH (y + rx)),
         (x + rx, flipY sheetH y)])]
    else
      [(elemLayer (.rect x y w h rx s), .lw
        [(x, flipY sheetH y), (x + w, flipY sheetH y),
         (x + w, flipY sheetH (y + h)), (x, flipY sheetH (y + h)),
         (x, flipY sheetH y)])]
  | .circle cx cy r s => [(elemLayer (.circle cx cy r s), .circ cx (flipY sheetH cy) r)]
  | .path coords z s =>
    if 2 ≤ coords.length then
      let pts := coords.map fun p => (p.1, flipY sheetH p.2)
      let p0 := pts.headD (0, 0)
      let pl := pts.getLastD (0, 0)
      let closed := z = true ∨ (2 < pts.length ∧ |p0.1 - pl.1| < 1/100 ∧ |p0.2 - pl.2| < 1/100)
      let pts2 :=
        if closed ∧ (1/100 < |p0.1 - pl.1| ∨ 1/100 < |p0.2 - pl.2|) then pts ++ [p0]
        else pts
      [(elemLayer (.path coords z s), .lw pts2)]
    else []

/-- One written DXF entity record: for an LWPOLYLINE, the group-90
vertex-count field, the group-70 closed flag, and the vertex records actually
written. -/
inductive DxfRecord
  | circ (layer : Layer) (cx cy r : ℚ)
  | lw (layer : Layer) (count90 flag70 : ℕ) (verts : List Pt)
deriving DecidableEq, Repr

/-- The closed test of the LWPOLYLINE writer: more than two points and first
and last within the 0.01 tolerance in both coordinates. -/
def closedChk (pts : List Pt) : Bool :=
  match pts with
  | [] => false
  | p :: rest =>
    decide (2 < (p :: rest).length) &&
    decide (|p.1 - ((p :: rest).getLastD p).1| < 1/100) &&
    decide (|p.2 - ((p :: rest).getLastD p).2| < 1/100)

/-- The LWPOLYLINE writing step of `svg_to_dxf`: group 90 is written from
`len(pts)` first; only then, when the closed test succeeds, is the duplicate
closing point removed from the vertex records. -/
def writeLW (pts : List Pt) : ℕ × ℕ × List Pt :=
  if closedChk pts then (pts.length, 1, pts.dropLast) else (pts.length, 0, pts)

/-- Assemble one written record from a collected entity. -/
def writeEntity : Layer × DxfEnt → DxfRecord
  | (l, .circ cx cy r) => .circ l cx cy r
  | (l, .lw pts) =>
    let o := writeLW pts
    .lw l o.1 o.2.1 o.2.2

/-- `svg_to_dxf` (entity part): the written DXF records of a sheet document. -/
def svg_to_dxf (sheetH : ℚ) (doc : List Elem) : List DxfRecord :=
  (doc.flatMap (dxfEntitiesOf sheetH)).map writeEntity

/-- `1000 * q` is an integer: `q` lies on the three-decimal grid that every
coordinate written through the `f"{v:.3f}"` SVG formatter lies on. -/
def onGrid (q : ℚ) : Prop := ∃ z : ℤ, 1000 * q = (z : ℚ)

/-- All path coordinates of an element lie on the three-decimal grid (other
element kinds carry no formatted coordinates). -/
def elemOnGrid : Elem → Prop
  | .path pts _ _ => ∀ p ∈ pts, onGrid p.1 ∧ onGrid p.2
  | _ => True

/-- The expected all-flat outline: the clockwise rectangle boundary walk from
`(0,0)` through the equally spaced segment endpoints of each edge (the four
corners among them), the closing `(0,0)` dropped. -/
def flatBoundary (w h : ℚ) : List Pt :=
  (0, 0) ::
  (((List.range' 1 (nfingers w)).map fun i : ℕ => ((i : ℚ) * (w / (nfingers w : ℚ)), 0)) ++
   (((List.range' 1 (nfingers h)).map fun j : ℕ => (w, (j : ℚ) * (h / (nfingers h : ℚ)))) ++
    (((List.range' 1 (nfingers w)).map fun i : ℕ =>
        (w - (i : ℚ) * (w / (nfingers w : ℚ)), h)) ++
     ((List.range' 1 (nfingers h - 1)).map fun j : ℕ =>
        (0, h - (j : ℚ) * (h / (nfingers h : ℚ)))))))

/-!
## Helper lemmas
-/

/-- A point is never `farB` from itself. -/
theorem farB_self (p : Pt) : farB p p = false := by
  simp [farB]

/-- Unfolding `cleanAux` on a kept point. -/
theorem cleanAux_cons_far {a p : Pt} (t : List Pt) (h : farB p a = true) :
    cleanAux a (p :: t) = p :: cleanAux p t := by
  simp [cleanAux, h]

/-- Unfolding `cleanAux` on a merged point. -/
theorem cleanAux_cons_near {a p : Pt} (t : List Pt) (h : farB p a = false) :
    cleanAux a (p :: t) = cleanAux a t := by
  simp [cleanAux, h]

/-- `cleanAux` distributes over append, restarting from the last kept point. -/
theorem cleanAux_append (a : Pt) (xs ys : List Pt) :
    cleanAux a (xs ++ ys) =
      cleanAux a xs ++ cleanAux ((cleanAux a xs).getLastD a) ys := by
  induction xs generalizing a with
  | nil => simp [cleanAux]
  | cons p t ih =>
    rw [List.cons_append]
    by_cases h : farB p a
    · rw [cleanAux_cons_far _ h, cleanAux_cons_far _ h, ih p, List.getLastD_cons,
        List.cons_append]
    · rw [cleanAux_cons_near _ (by simpa using h), cleanAux_cons_near _ (by simpa using h),
        ih a]

/-- Consecutive points kept by `cleanAux` are pairwise `farB`. -/
theorem chain'_cleanAux (a : Pt) (l : List Pt) :
    List.Chain' (fun p q => farB q p = true) (a :: cleanAux a l) := by
  induction l generalizing a with
  | nil => simp [cleanAux]
  | cons p t ih =>
    by_cases h : farB p a
    · rw [cleanAux_cons_far _ h]
      exact List.Chain'.cons h (ih p)
    · rw [cleanAux_cons_near _ (by simpa using h)]
      exact ih a

/-- The last kept point of `cleanAux` is the raw last point, or else within
the epsilon of it. -/
theorem cleanAux_lastKept (a : Pt) (l : List Pt) :
    (cleanAux a l).getLastD a = l.getLastD a ∨
      farB (l.getLastD a) ((cleanAux a l).getLastD a) = false := by
  induction l generalizing a with
  | nil => left; simp [cleanAux]
  | cons p t ih =>
    by_cases h : farB p a
    · rw [cleanAux_cons_far _ h, List.getLastD_cons, List.getLastD_cons]
      exact ih p
    · rw [cleanAux_cons_near _ (by simpa using h)]
      rcases t with _ | ⟨q, t'⟩
      · right
        simpa [cleanAux] using (by simpa using h : farB p a = false)
      · rw [List.getLastD_cons, List.getLastD_cons]
        have := ih a
        rwa [List.getLastD_cons] at this

/-- Head of a `flatMap` over `range n` when the first block is nonempty. -/
theorem head?_flatMap_range {α : Type} (f : ℕ → List α) (n : ℕ) (hn : 0 < n)
    (hf : f 0 ≠ []) : ((List.range n).flatMap f).head? = (f 0).head? := by
  obtain ⟨m, rfl⟩ := Nat.exists_eq_succ_of_ne_zero hn.ne'
  rw [List.range_succ_eq_map, List.flatMap_cons]
  exact List.head?_append_of_ne_nil _ hf

/-- Last of a `flatMap` over `range n` when the final block is nonempty. -/
theorem getLast?_flatMap_range {α : Type} (f : ℕ → List α) (n : ℕ) (hn : 0 < n)
    (hf : f (n - 1) ≠ []) :
    ((List.range n).flatMap f).getLast? = (f (n - 1)).getLast? := by
  obtain ⟨m, rfl⟩ := Nat.exists_eq_succ_of_ne_zero hn.ne'
  rw [List.range_succ, List.flatMap_append, List.flatMap_cons]
  simp only [List.flatMap_nil, List.append_nil, Nat.succ_sub_one] at *
  exact List.getLast?_append_of_ne_nil _ hf

/-- `nfingers` is at least 3 for every length. -/
theorem nfingers_ge_three (l : ℚ) : 3 ≤ nfingers l := by
  have h3 : 3 ≤ (max 3 (pyRound (l / FINGER_WIDTH))).toNat := by
    have h := le_max_left 3 (pyRound (l / FINGER_WIDTH))
    omega
  show 3 ≤ (if (max 3 (pyRound (l / FINGER_WIDTH))).toNat % 2 = 0
    then (max 3 (pyRound (l / FINGER_WIDTH))).toNat + 1
    else (max 3 (pyRound (l / FINGER_WIDTH))).toNat)
  split <;> omega

/-- `nfingers` is always odd. -/
theorem nfingers_mod_two (l : ℚ) : nfingers l % 2 = 1 := by
  show (if (max 3 (pyRound (l / FINGER_WIDTH))).toNat % 2 = 0
    then (max 3 (pyRound (l / FINGER_WIDTH))).toNat + 1
    else (max 3 (pyRound (l / FINGER_WIDTH))).toNat) % 2 = 1
  split <;> omega

/-- Odd-indexed segments are never fingers. -/
theorem is_finger_odd_index (i n : ℕ) (m : Mode) (sk : Bool) (h : i % 2 = 1) :
    is_finger i n m sk = false := by
  simp [is_finger, h]

/-- Even-indexed segments of a non-flat edge are fingers (no end-skipping). -/
theorem is_finger_even_index (i n : ℕ) (m : Mode) (h1 : m ≠ Mode.flat)
    (h2 : i % 2 = 0) : is_finger i n m false = true := by
  simp [is_finger, h1, h2]

/-- Each top-edge block is nonempty. -/
theorem topSeg_ne_nil (a : FO) (i : ℕ) : a.topSeg i ≠ [] := by
  simp only [FO.topSeg]
  split
  · split <;> split <;> simp
  · split <;> simp

/-- Each right-edge block is nonempty. -/
theorem rightSeg_ne_nil (a : FO) (i : ℕ) : a.rightSeg i ≠ [] := by
  simp only [FO.rightSeg]
  split <;> simp

/-- Each bottom-edge block is nonempty. -/
theorem botSeg_ne_nil (a : FO) (i : ℕ) : a.botSeg i ≠ [] := by
  simp only [FO.botSeg]
  split
  · split <;> split <;> simp
  · simp

/-- Each left-edge block is nonempty. -/
theorem leftSeg_ne_nil (a : FO) (i : ℕ) : a.leftSeg i ≠ [] := by
  simp only [FO.leftSeg]
  split <;> simp

/-- `n_w` as a rational times the segment width gives back `w`. -/
theorem nw_mul_fww (a : FO) : (a.nw : ℚ) * a.fww = a.w := by
  have h3 : 3 ≤ a.nw := nfingers_ge_three a.w
  have hne : (a.nw : ℚ) ≠ 0 := Nat.cast_ne_zero.mpr (by omega)
  rw [FO.fww]
  field_simp

/-- `n_h` as a rational times the segment width gives back `h`. -/
theorem nh_mul_fwh (a : FO) : (a.nh : ℚ) * a.fwh = a.h := by
  have h3 : 3 ≤ a.nh := nfingers_ge_three a.h
  have hne : (a.nh : ℚ) ≠ 0 := Nat.cast_ne_zero.mpr (by omega)
  rw [FO.fwh]
  field_simp

/-- Casting `n - 1` and adding one gives back `n`. -/
theorem cast_pred_add_one {n : ℕ} (hn : 1 ≤ n) : ((n - 1 : ℕ) : ℚ) + 1 = (n : ℚ) := by
  push_cast [hn]
  ring

/-- `right_start_y` always equals `top_d`. -/
theorem right_start_y_eq (a : FO) : a.right_start_y = a.top_d := by
  rw [FO.right_start_y]
  split
  · rfl
  · simp_all

/-- `right_end_y` always equals `h + bot_d_start`. -/
theorem right_end_y_eq (a : FO) : a.right_end_y = a.h + a.bot_d_start := by
  rw [FO.right_end_y]
  split
  · rfl
  · simp_all

/-- `left_start_y` always equals `h + bot_d_end`. -/
theorem left_start_y_eq (a : FO) : a.left_start_y = a.h + a.bot_d_end := by
  rw [FO.left_start_y]
  split
  · rfl
  · simp_all

/-- `left_end_y` always equals `top_d_start`. -/
theorem left_end_y_eq (a : FO) : a.left_end_y = a.top_d_start := by
  rw [FO.left_end_y]
  split
  · rfl
  · simp_all

/-- The top edge's last emitted point is `(w, top_d)`. -/
theorem topPts_getLast? (a : FO) : a.topPts.getLast? = some (a.w, a.top_d) := by
  have h3 : 3 ≤ a.nw := nfingers_ge_three a.w
  have hx1 : ((a.nw - 1 : ℕ) : ℚ) + 1 = (a.nw : ℚ) := cast_pred_add_one (by omega)
  rw [FO.topPts, getLast?_flatMap_range _ _ (by omega) (topSeg_ne_nil a _)]
  by_cases hf : is_finger (a.nw - 1) a.nw a.top false = true
  · simp only [FO.topSeg, hf, if_true]
    rw [List.getLast?_append_of_ne_nil _ (by simp)]
    simp only [List.getLast?_singleton, Option.some.injEq, Prod.mk.injEq]
    exact ⟨by rw [hx1, nw_mul_fww], by rw [FO.top_d, if_pos hf]⟩
  · have hf' : is_finger (a.nw - 1) a.nw a.top false = false := by simpa using hf
    simp only [FO.topSeg, hf', Bool.false_eq_true, if_false]
    rw [List.getLast?_append_of_ne_nil _ (by simp)]
    simp only [List.getLast?_singleton, Option.some.injEq, Prod.mk.injEq]
    exact ⟨by rw [hx1, nw_mul_fww], by rw [FO.top_d, if_neg (by simp [hf'])]⟩

/-- The right edge's first emitted point is `(w, right_start_y)`. -/
theorem rightPts_head? (a : FO) : a.rightPts.head? = some (a.w, a.right_start_y) := by
  have h3 : 3 ≤ a.nh := nfingers_ge_three a.h
  rw [FO.rightPts, head?_flatMap_range _ _ (by omega) (rightSeg_ne_nil a 0)]
  simp only [FO.rightSeg, if_pos rfl]
  split <;> simp

/-- The right edge's last emitted point is `(w, right_end_y)`. -/
theorem rightPts_getLast? (a : FO) : a.rightPts.getLast? = some (a.w, a.right_end_y) := by
  have h3 : 3 ≤ a.nh := nfingers_ge_three a.h
  rw [FO.rightPts, getLast?_flatMap_range _ _ (by omega) (rightSeg_ne_nil a _)]
  simp only [FO.rightSeg, if_pos rfl]
  split <;> simp

/-- The bottom edge's first emitted point is `(w, h + bot_d_start)`. -/
theorem botPts_head? (a : FO) : a.botPts.head? = some (a.w, a.h + a.bot_d_start) := by
  have h3 : 3 ≤ a.nw := nfingers_ge_three a.w
  rw [FO.botPts, head?_flatMap_range _ _ (by omega) (botSeg_ne_nil a 0)]
  by_cases hf : is_finger 0 a.nw a.bottom false = true
  · simp only [FO.botSeg, hf, if_true, if_pos rfl]
    rw [FO.bot_d_start, if_pos hf]
    simp
  · simp only [FO.botSeg, hf]
    rw [if_neg (by simp [hf]), FO.bot_d_start, if_neg (by simp [hf])]
    simp

/-- The bottom edge's last emitted point is `(0, h + bot_d_end)`. -/
theorem botPts_getLast? (a : FO) : a.botPts.getLast? = some (0, a.h + a.bot_d_end) := by
  have h3 : 3 ≤ a.nw := nfingers_ge_three a.w
  have hx0 : a.w - (((a.nw - 1 : ℕ) : ℚ) + 1) * a.fww = 0 := by
    rw [cast_pred_add_one (by omega : 1 ≤ a.nw), nw_mul_fww]
    ring
  rw [FO.botPts, getLast?_flatMap_range _ _ (by omega) (botSeg_ne_nil a _)]
  by_cases hf : is_finger (a.nw - 1) a.nw a.bottom false = true
  · simp only [FO.botSeg, hf, if_true]
    rw [List.getLast?_append_of_ne_nil _ (by simp)]
    simp only [List.getLast?_singleton, Option.some.injEq, Prod.mk.injEq]
    exact ⟨hx0, by rw [FO.bot_d_end, if_pos hf]⟩
  · have hf' : is_finger (a.nw - 1) a.nw a.bottom false = false := by simpa using hf
    have hz : a.bot_d_end = 0 := by rw [FO.bot_d_end, if_neg (by simp [hf'])]
    simp only [FO.botSeg, hf', Bool.false_eq_true, if_false]
    simp only [List.getLast?_cons_cons, List.getLast?_singleton, Option.some.injEq,
      Prod.mk.injEq, hz]
    exact ⟨hx0, by ring⟩

/-- The left edge's first emitted point is `(0, left_start_y)`. -/
theorem leftPts_head? (a : FO) : a.leftPts.head? = some (0, a.left_start_y) := by
  have h3 : 3 ≤ a.nh := nfingers_ge_three a.h
  rw [FO.leftPts, head?_flatMap_range _ _ (by omega) (leftSeg_ne_nil a 0)]
  simp only [FO.leftSeg, if_pos rfl]
  split <;> simp

/-- The left edge's last emitted point is `(0, left_end_y)`. -/
theorem leftPts_getLast? (a : FO) : a.leftPts.getLast? = some (0, a.left_end_y) := by
  have h3 : 3 ≤ a.nh := nfingers_ge_three a.h
  rw [FO.leftPts, getLast?_flatMap_range _ _ (by omega) (leftSeg_ne_nil a _)]
  simp only [FO.leftSeg, if_pos rfl]
  split <;> simp

/-- The top edge's first emitted point is `(0, top_d_start)`. -/
theorem topPts_head? (a : FO) : a.topPts.head? = some (0, a.top_d_start) := by
  have h3 : 3 ≤ a.nw := nfingers_ge_three a.w
  rw [FO.topPts, head?_flatMap_range _ _ (by omega) (topSeg_ne_nil a 0)]
  by_cases hf : is_finger 0 a.nw a.top false = true
  · simp only [FO.topSeg, hf, if_true, if_pos rfl]
    rw [FO.top_d_start, if_pos hf]
    simp
  · have hz : a.top_d_start = 0 := by rw [FO.top_d_start, if_neg (by simp [hf])]
    simp only [FO.topSeg, hf]
    rw [if_neg (by simp [hf]), if_neg (by simp [hz])]
    simp [hz]

/-!
## C1 — corner handoff
-/

/-- C1 (amended): at every one of the four corners the outgoing edge's first
emitted point is exactly (bit-identically) the incoming edge's last emitted
point, so the cleaned polygon meets at one shared corner point; when the
incoming edge is the top or bottom edge and is non-flat (so it ends on a
finger segment), that shared point is already offset by the segment's
geometric signed depth. (As stated the claim is false for the left/right
edges, whose fingers return to the baseline before the corner: see the
counterexample.) -/
theorem c1_corner_handoff (a : FO) (hw : 0 < a.w) (hh : 0 < a.h) :
    (a.topPts.getLast? = a.rightPts.head? ∧
     a.rightPts.getLast? = a.botPts.head? ∧
     a.botPts.getLast? = a.leftPts.head? ∧
     a.leftPts.getLast? = a.topPts.head?) ∧
    (a.top ≠ Mode.flat → a.topPts.getLast? = some (a.w, -(sdepth a.top a.topD))) ∧
    (a.bottom ≠ Mode.flat →
      a.botPts.getLast? = some (0, a.h + sdepth a.bottom a.botD)) := by
  have h3w : 3 ≤ a.nw := nfingers_ge_three a.w
  have hoddw : a.nw % 2 = 1 := nfingers_mod_two a.w
  refine ⟨⟨?_, ?_, ?_, ?_⟩, ?_, ?_⟩
  · rw [topPts_getLast?, rightPts_head?, right_start_y_eq]
  · rw [rightPts_getLast?, botPts_head?, right_end_y_eq]
  · rw [botPts_getLast?, leftPts_head?, left_start_y_eq]
  · rw [leftPts_getLast?, topPts_head?, left_end_y_eq]
  · intro ht
    rw [topPts_getLast?, FO.top_d,
      if_pos (is_finger_even_index _ _ _ ht (by omega))]
  · intro hb
    rw [botPts_getLast?, FO.bot_d_end,
      if_pos (is_finger_even_index _ _ _ hb (by omega))]

/-- C1 counterexample: for the 36 × 36 panel whose right edge is `tab`
(depth 3) and whose other edges are flat, the right edge ends on a non-flat
finger segment, yet its last emitted point is `(36, 36)` — the nominal
corner, not a point offset by the segment's signed depth `-3` (which would
put it at x = 33). -/
theorem c1_counterexample :
    (FO.mk 36 36 Mode.flat Mode.flat Mode.flat Mode.tab T_WALL none none none
      false).rightPts.getLast? = some ((36 : ℚ), (36 : ℚ)) ∧
    is_finger (nfingers 36 - 1) (nfingers 36) Mode.tab false = true ∧
    Mode.tab ≠ Mode.flat ∧
    (36 : ℚ) ≠ 36 + sdepth Mode.tab T_WALL := by
  have hn : nfingers 36 = 3 := by
    norm_num [nfingers, pyRound, FINGER_WIDTH]
    decide
  have hmf : (Mode.tab = Mode.flat) = False := by
    simp
  refine ⟨?_, ?_, by decide, by norm_num [sdepth, T_WALL]⟩
  · norm_num [FO.rightPts, FO.rightSeg, FO.nh, FO.nw, hn, FO.fwh, FO.right_start_y,
      FO.right_end_y, FO.top_d, FO.bot_d_start, FO.topD, FO.botD, FO.lrD,
      is_finger, sdepth, List.range_succ, T_WALL, hmf]
  · rw [hn]
    decide

/-- Witness for C1 at a 36 × 36 panel with `tab` top/bottom and `outer_tab`
left/right edges. -/
theorem c1_corner_handoff_witness :
    ((FO.mk 36 36 Mode.tab Mode.tab Mode.outer_tab Mode.outer_tab T_WALL none
        none none false).topPts.getLast? =
      (FO.mk 36 36 Mode.tab Mode.tab Mode.outer_tab Mode.outer_tab T_WALL none
        none none false).rightPts.head? ∧
     (FO.mk 36 36 Mode.tab Mode.tab Mode.outer_tab Mode.outer_tab T_WALL none
        none none false).rightPts.getLast? =
      (FO.mk 36 36 Mode.tab Mode.tab Mode.outer_tab Mode.outer_tab T_WALL none
        none none false).botPts.head? ∧
     (FO.mk 36 36 Mode.tab Mode.tab Mode.outer_tab Mode.outer_tab T_WALL none
        none none false).botPts.getLast? =
      (FO.mk 36 36 Mode.tab Mode.tab Mode.outer_tab Mode.outer_tab T_WALL none
        none none false).leftPts.head? ∧
     (FO.mk 36 36 Mode.tab Mode.tab Mode.outer_tab Mode.outer_tab T_WALL none
        none none false).leftPts.getLast? =
      (FO.mk 36 36 Mode.tab Mode.tab Mode.outer_tab Mode.outer_tab T_WALL none
        none none false).topPts.head?) ∧
    (Mode.tab ≠ Mode.flat →
      (FO.mk 36 36 Mode.tab Mode.tab Mode.outer_tab Mode.outer_tab T_WALL none
        none none false).topPts.getLast? =
      some ((FO.mk 36 36 Mode.tab Mode.tab Mode.outer_tab Mode.outer_tab T_WALL
        none none none false).w,
        -(sdepth Mode.tab (FO.mk 36 36 Mode.tab Mode.tab Mode.outer_tab
          Mode.outer_tab T_WALL none none none false).topD))) ∧
    (Mode.tab ≠ Mode.flat →
      (FO.mk 36 36 Mode.tab Mode.tab Mode.outer_tab Mode.outer_tab T_WALL none
        none none false).botPts.getLast? =
      some (0, (FO.mk 36 36 Mode.tab Mode.tab Mode.outer_tab Mode.outer_tab
        T_WALL none none none false).h +
        sdepth Mode.tab (FO.mk 36 36 Mode.tab Mode.tab Mode.outer_tab
          Mode.outer_tab T_WALL none none none false).botD)) :=
  c1_corner_handoff
    (FO.mk 36 36 Mode.tab Mode.tab Mode.outer_tab Mode.outer_tab T_WALL none
      none none false)
    (by norm_num) (by norm_num)

/-!
## C2 — finger segmentation rule
-/

/-- C2: for every edge length `L > 0` the segment count is odd and at least
3; odd-indexed segments are never fingers while even-indexed segments of a
non-flat edge are (absent end-skipping); and `L = 120` with
`FINGER_WIDTH = 12` yields `n = 11` (`round(120/12) = 10`, forced odd). -/
theorem c2_finger_segmentation (L : ℚ) (hL : 0 < L) :
    (Odd (nfingers L) ∧ 3 ≤ nfingers L) ∧
    (∀ (m : Mode) (sk : Bool) (i n : ℕ), i % 2 = 1 → is_finger i n m sk = false) ∧
    (∀ (m : Mode) (i n : ℕ), m ≠ Mode.flat → i % 2 = 0 →
      is_finger i n m false = true) ∧
    nfingers 120 = 11 := by
  refine ⟨⟨Nat.odd_iff.mpr (nfingers_mod_two L), nfingers_ge_three L⟩, ?_, ?_, ?_⟩
  · exact fun m sk i n h => is_finger_odd_index i n m sk h
  · exact fun m i n h1 h2 => is_finger_even_index i n m h1 h2
  · norm_num [nfingers, pyRound, FINGER_WIDTH]
    decide

/-!
## C4 — input validation of finger_outline
-/

/-- `cleanPts` of a nonempty list is nonempty. -/
theorem cleanPts_ne_nil {l : List Pt} (h : l ≠ []) : cleanPts l ≠ [] := by
  cases l with
  | nil => exact absurd rfl h
  | cons p rest => simp [cleanPts]

/-- `dropClosing` of a nonempty list is nonempty. -/
theorem dropClosing_ne_nil {l : List Pt} (h : l ≠ []) : dropClosing l ≠ [] := by
  cases l with
  | nil => exact absurd rfl h
  | cons p rest =>
    rw [dropClosing]
    split
    · rename_i hc
      cases rest with
      | nil => simp at hc
      | cons q t => simp
    · simp

/-- The raw point list is never empty. -/
theorem rawPts_ne_nil (a : FO) : a.rawPts ≠ [] := by
  have hh := topPts_head? a
  intro h
  rw [FO.rawPts] at h
  rcases List.append_eq_nil.mp h with ⟨h1, -⟩
  rcases List.append_eq_nil.mp h1 with ⟨h2, -⟩
  rcases List.append_eq_nil.mp h2 with ⟨h3, -⟩
  rw [h3] at hh
  simp at hh

/-- C4 (amended): `finger_outline` performs no input validation at all — for
non-positive width or height it silently returns a (nonempty) point list,
the walk of the degenerate rectangle, instead of raising an error. -/
theorem c4_no_validation (a : FO) (hbad : a.w ≤ 0 ∨ a.h ≤ 0) :
    finger_outline a ≠ [] :=
  dropClosing_ne_nil (cleanPts_ne_nil (rawPts_ne_nil a))

/-- C4 counterexample: at width = height = −12 (all edges flat) the function
raises nothing and returns a 12-point polygon. -/
theorem c4_counterexample :
    (-12 : ℚ) ≤ 0 ∧
    (finger_outline (FO.mk (-12) (-12) Mode.flat Mode.flat Mode.flat Mode.flat
      T_WALL none none none false)).length = 12 := by
  have hn : nfingers (-12) = 3 := by
    norm_num [nfingers, pyRound, FINGER_WIDTH]
    decide
  refine ⟨by norm_num, ?_⟩
  norm_num [finger_outline, FO.rawPts, FO.topPts, FO.rightPts, FO.botPts, FO.leftPts,
    FO.topSeg, FO.rightSeg, FO.botSeg, FO.leftSeg, FO.nw, FO.nh, hn, FO.fww, FO.fwh,
    FO.top_d, FO.bot_d_start, FO.bot_d_end, FO.top_d_start, FO.right_start_y,
    FO.right_end_y, FO.left_start_y, FO.left_end_y, FO.topD, FO.botD, FO.lrD,
    is_finger, sdepth, List.range_succ, cleanPts, cleanAux, farB, dropClosing,
    List.getLastD, T_WALL]

/-- Witness for C4 at the same non-positive input. -/
theorem c4_no_validation_witness :
    finger_outline (FO.mk (-12) (-12) Mode.flat Mode.flat Mode.flat Mode.flat
      T_WALL none none none false) ≠ [] :=
  c4_no_validation _ (Or.inl (by norm_num))

/-!
## C10 — tb_panel_outline keeps its closing duplicate
-/

/-- `cleanPts` distributes over an append with a nonempty left part. -/
theorem cleanPts_cons_append (x : Pt) (t l₂ : List Pt) :
    cleanPts ((x :: t) ++ l₂) =
      cleanPts (x :: t) ++ cleanAux ((cleanAux x t).getLastD x) l₂ := by
  rw [List.cons_append, cleanPts, cleanPts, cleanAux_append, List.cons_append]

/-- `cleanAux` on the closing run `[(0, h+3), (0, h), (0, h), (0, 0)]` of
`tb_panel_outline`, from any restart point: the kept tail always ends with
`(0, h)` then `(0, 0)` when `h` exceeds the epsilon. -/
theorem cleanAux_closing (K : Pt) (h : ℚ) (hh : 1/1000 < h) :
    cleanAux K [(0, h + T_WALL), (0, h), (0, h), (0, 0)] =
      if farB (0, h + T_WALL) K then [(0, h + T_WALL), (0, h), (0, 0)]
      else [(0, h), (0, 0)] := by
  have hfar_hT_h : farB (0, h) (0, h + T_WALL) = true := by
    simp only [farB, decide_eq_true_eq]
    right
    have he : h - (h + T_WALL) = -3 := by norm_num [T_WALL]
    rw [he]
    norm_num
  have hnear : farB (0, h) (0, h) = false := farB_self _
  have hfar0 : farB (0, 0) (0, h) = true := by
    simp only [farB, decide_eq_true_eq]
    right
    rw [zero_sub, abs_neg, abs_of_pos (by linarith : (0:ℚ) < h)]
    exact hh
  by_cases hK : farB (0, h + T_WALL) K = true
  · rw [if_pos hK, cleanAux_cons_far _ hK, cleanAux_cons_far _ hfar_hT_h,
      cleanAux_cons_near _ hnear, cleanAux_cons_far _ hfar0]
    rfl
  · have hK' : farB (0, h + T_WALL) K = false := by simpa using hK
    have hb : |h + T_WALL - K.2| ≤ 1/1000 := by
      have hb0 : ¬(1/1000 < |(0:ℚ) - K.1| ∨ 1/1000 < |h + T_WALL - K.2|) := by
        simpa [farB] using hK'
      push_neg at hb0
      exact hb0.2
    have hstep := abs_sub_abs_le_abs_sub T_WALL (h + T_WALL - K.2)
    have he : T_WALL - (h + T_WALL - K.2) = K.2 - h := by ring
    rw [he] at hstep
    have hTv : |T_WALL| = 3 := by norm_num [T_WALL]
    rw [hTv] at hstep
    have hfarK : farB (0, h) K = true := by
      simp only [farB, decide_eq_true_eq]
      right
      rw [abs_sub_comm]
      linarith
    rw [if_neg hK, cleanAux_cons_near _ hK', cleanAux_cons_far _ hfarK,
      cleanAux_cons_near _ hnear, cleanAux_cons_far _ hfar0]
    rfl

/-- For any nonempty prefix `P`, cleaning `P` followed by the six-point
closing run of `tb_panel_outline` yields a list of at least two points whose
last point is exactly `(0, 0)`. -/
theorem cleanPts_closing_run (P : List Pt) (hP : P ≠ []) (fw h : ℚ)
    (hh : 1/1000 < h) :
    (cleanPts (P ++ [(fw, h), (fw, h + T_WALL), (0, h + T_WALL), (0, h), (0, h),
      (0, 0)])).getLast? = some (0, 0) ∧
    2 ≤ (cleanPts (P ++ [(fw, h), (fw, h + T_WALL), (0, h + T_WALL), (0, h), (0, h),
      (0, 0)])).length := by
  rcases P with _ | ⟨x, t⟩
  · exact absurd rfl hP
  · rw [show ([(fw, h), (fw, h + T_WALL), (0, h + T_WALL), (0, h), (0, h), (0, 0)] :
        List Pt) = [(fw, h), (fw, h + T_WALL)] ++ [(0, h + T_WALL), (0, h), (0, h),
        (0, 0)] from rfl]
    rw [List.cons_append, cleanPts, ← List.append_assoc, cleanAux_append,
      cleanAux_closing _ h hh]
    rw [← List.cons_append]
    constructor
    · rw [List.getLast?_append_of_ne_nil _ (by split <;> simp)]
      split <;> rfl
    · rw [List.length_append]
      have h2 : 2 ≤ (if farB (0, h + T_WALL)
          ((cleanAux x (t ++ [(fw, h), (fw, h + T_WALL)])).getLastD x) then
          [((0:ℚ), h + T_WALL), (0, h), (0, 0)] else [((0:ℚ), h), (0, 0)]).length := by
        split <;> simp
      omega

/-- Splitting the last block off a `flatMap` over `range (m+1)`. -/
theorem flatMap_range_concat {α : Type} (g : ℕ → List α) (m : ℕ) :
    (List.range (m + 1)).flatMap g = (List.range m).flatMap g ++ g m := by
  rw [List.range_succ, List.flatMap_append, List.flatMap_cons, List.flatMap_nil,
    List.append_nil]

/-- C10: `tb_panel_outline`, unlike `finger_outline`, never drops a
coinciding final point: for `w > 0` and `h` above the de-duplication epsilon
the returned list starts and ends at `(0, 0)`, carrying an explicit closing
duplicate. -/
theorem c10_tb_explicit_closing (w h : ℚ) (hw : 0 < w) (hh : 1/1000 < h) :
    (tb_panel_outline w h).head? = some (0, 0) ∧
    (tb_panel_outline w h).getLast? = some (0, 0) ∧
    2 ≤ (tb_panel_outline w h).length := by
  have h3 : 3 ≤ nfingers w := nfingers_ge_three w
  obtain ⟨m, hm⟩ : ∃ m, nfingers w = m + 1 := ⟨nfingers w - 1, by omega⟩
  -- decompose the raw walk: the bottom loop's final block is its i = 0 block
  have hdec : tbRaw w h =
      (((List.range (nfingers w)).flatMap fun i =>
          let x0 : ℚ := (i : ℚ) * (w / ((nfingers w : ℕ) : ℚ))
          let x1 : ℚ := ((i : ℚ) + 1) * (w / ((nfingers w : ℕ) : ℚ))
          if i % 2 = 0 then [(x0, 0), (x0, -T_WALL), (x1, -T_WALL), (x1, 0)]
          else [(x0, 0), (x1, 0)]) ++
        [(w, 0), (w, h)] ++
        ((List.range m).flatMap fun k =>
          let i := nfingers w - 1 - k
          let x0 : ℚ := (i : ℚ) * (w / ((nfingers w : ℕ) : ℚ))
          let x1 : ℚ := ((i : ℚ) + 1) * (w / ((nfingers w : ℕ) : ℚ))
          if i % 2 = 0 then [(x1, h), (x1, h + T_WALL), (x0, h + T_WALL), (x0, h)]
          else [(x1, h), (x0, h)])) ++
      [((w / ((nfingers w : ℕ) : ℚ)), h), ((w / ((nfingers w : ℕ) : ℚ)), h + T_WALL),
        (0, h + T_WALL), (0, h), (0, h), (0, 0)] := by
    rw [tbRaw]
    conv_lhs =>
      rw [show nfingers w = m + 1 from hm]
      rw [flatMap_range_concat
        (fun k =>
          let i := m + 1 - 1 - k
          let x0 : ℚ := (i : ℚ) * (w / ((m + 1 : ℕ) : ℚ))
          let x1 : ℚ := ((i : ℚ) + 1) * (w / ((m + 1 : ℕ) : ℚ))
          if i % 2 = 0 then [(x1, h), (x1, h + T_WALL), (x0, h + T_WALL), (x0, h)]
          else [(x1, h), (x0, h)]) m]
    rw [hm]
    simp only [Nat.add_sub_cancel, Nat.sub_self, Nat.zero_mod, if_pos rfl,
      Nat.cast_zero, zero_mul, zero_add, one_mul, eq_self_iff_true, if_true]
    simp only [List.append_assoc, List.cons_append, List.nil_append,
      List.singleton_append]
  rw [tb_panel_outline, hdec]
  set TOP : List Pt := (List.range (nfingers w)).flatMap fun i =>
    let x0 : ℚ := (i : ℚ) * (w / ((nfingers w : ℕ) : ℚ))
    let x1 : ℚ := ((i : ℚ) + 1) * (w / ((nfingers w : ℕ) : ℚ))
    if i % 2 = 0 then [(x0, 0), (x0, -T_WALL), (x1, -T_WALL), (x1, 0)]
    else [(x0, 0), (x1, 0)] with hTOP
  have hTOPhead : TOP.head? = some (0, 0) := by
    rw [hTOP, head?_flatMap_range _ _ (by omega) (by simp)]
    simp
  have hPne : (TOP ++ [(w, 0), (w, h)] ++ ((List.range m).flatMap fun k =>
      let i := nfingers w - 1 - k
      let x0 : ℚ := (i : ℚ) * (w / ((nfingers w : ℕ) : ℚ))
      let x1 : ℚ := ((i : ℚ) + 1) * (w / ((nfingers w : ℕ) : ℚ))
      if i % 2 = 0 then [(x1, h), (x1, h + T_WALL), (x0, h + T_WALL), (x0, h)]
      else [(x1, h), (x0, h)])) ≠ [] := by
    simp
  obtain ⟨hlast, hlen⟩ := cleanPts_closing_run _ hPne (w / ((nfingers w : ℕ) : ℚ)) h hh
  refine ⟨?_, hlast, hlen⟩
  -- the head of the cleaned list is the head of the raw list
  have hhead : ∀ l : List Pt, (cleanPts l).head? = l.head? := by
    intro l
    cases l <;> simp [cleanPts]
  rw [hhead]
  rw [List.head?_append_of_ne_nil, List.head?_append_of_ne_nil, List.head?_append_of_ne_nil]
  · exact hTOPhead
  · intro hc
    rw [hc] at hTOPhead
    simp at hTOPhead
  · intro hc
    rcases List.append_eq_nil.mp hc with ⟨hc1, -⟩
    rw [hc1] at hTOPhead
    simp at hTOPhead
  · intro hc
    rcases List.append_eq_nil.mp hc with ⟨hc1, -⟩
    rcases List.append_eq_nil.mp hc1 with ⟨hc2, -⟩
    rw [hc2] at hTOPhead
    simp at hTOPhead

/-- Witness for C10 at `w = 195`, `h = 126` (the real top/bottom panel call
shape). -/
theorem c10_tb_explicit_closing_witness :
    (tb_panel_outline 195 126).head? = some (0, 0) ∧
    (tb_panel_outline 195 126).getLast? = some (0, 0) ∧
    2 ≤ (tb_panel_outline 195 126).length :=
  c10_tb_explicit_closing 195 126 (by norm_num) (by norm_num)

/-!
## C9 — the all-flat outline
-/

/-- `cleanPts` of a list whose first point is `x` equals `x` consed on the
`cleanAux` walk restarted at `x` over the whole list (the leading duplicate
merges immediately). -/
theorem cleanPts_eq_of_head? {l : List Pt} {x : Pt} (h : l.head? = some x) :
    cleanPts l = x :: cleanAux x l := by
  cases l with
  | nil => simp at h
  | cons p t =>
    have hx : p = x := by simpa using h
    subst hx
    rw [cleanPts, cleanAux_cons_near _ (farB_self p)]

/-- Cleaning a two-point-per-segment boundary walk whose steps all exceed the
epsilon keeps exactly the segment endpoints, and hands the walk's final point
to the continuation. -/
theorem cleanAux_walk_append (p : ℕ → Pt)
    (hfar : ∀ i, farB (p (i + 1)) (p i) = true) (rest : List Pt) :
    ∀ n k, cleanAux (p k) (((List.range' k n).flatMap fun i => [p i, p (i + 1)]) ++ rest) =
      (List.range' (k + 1) n).map p ++ cleanAux (p (k + n)) rest := by
  intro n
  induction n with
  | zero => intro k; simp
  | succ m ih =>
    intro k
    rw [List.range'_succ, List.flatMap_cons]
    simp only [List.cons_append, List.nil_append]
    rw [cleanAux_cons_near _ (farB_self _), cleanAux_cons_far _ (hfar k), ih (k + 1)]
    rw [List.range'_succ, List.map_cons, List.cons_append]
    have hadd : k + 1 + m = k + (m + 1) := by omega
    rw [hadd]

/-- The last entry of a mapped nonempty `range'`. -/
theorem getLastD_map_range' (p : ℕ → Pt) (s n : ℕ) (d : Pt) :
    ((List.range' s (n + 1)).map p).getLastD d = p (s + n) := by
  induction n generalizing s d with
  | zero => simp
  | succ m ih =>
    rw [List.range'_succ, List.map_cons, List.getLastD_cons, ih (s + 1)]
    have : s + 1 + m = s + (m + 1) := by omega
    rw [this]

/-- `getLastD` of an append with nonempty right part. -/
theorem getLastD_append_of_ne_nil (X Y : List Pt) (d : Pt) (hY : Y ≠ []) :
    (X ++ Y).getLastD d = Y.getLastD d := by
  rw [List.getLastD_eq_getLast?, List.getLastD_eq_getLast?,
    List.getLast?_append_of_ne_nil _ hY]

/-- Flat top edge: iteration `i` emits the two segment endpoints. -/
theorem topSeg_flat (a : FO) (ht : a.top = Mode.flat) (i : ℕ) :
    a.topSeg i = [((i : ℚ) * a.fww, 0), (((i + 1 : ℕ) : ℚ) * a.fww, 0)] := by
  have hf : is_finger i a.nw a.top false = false := by simp [is_finger, ht]
  have hz : a.top_d_start = 0 := by
    rw [FO.top_d_start, if_neg]
    simp [is_finger, ht]
  simp only [FO.topSeg, hf, Bool.false_eq_true, if_false, hz, ne_eq,
    not_true_eq_false, and_false, if_false]
  push_cast
  simp

/-- Flat right edge (with flat top and bottom): iteration `i` emits the two
segment endpoints. -/
theorem rightSeg_flat (a : FO) (ht : a.top = Mode.flat) (hb : a.bottom = Mode.flat)
    (hr : a.right = Mode.flat) (i : ℕ) :
    a.rightSeg i = [(a.w, (i : ℚ) * a.fwh), (a.w, ((i + 1 : ℕ) : ℚ) * a.fwh)] := by
  have h3 : 3 ≤ a.nh := nfingers_ge_three a.h
  have hf : is_finger i a.nh a.right a.skip_lr_ends = false := by simp [is_finger, hr]
  have htd : a.top_d = 0 := by
    rw [FO.top_d, if_neg]
    simp [is_finger, ht]
  have hbd : a.bot_d_start = 0 := by
    rw [FO.bot_d_start, if_neg]
    simp [is_finger, hb]
  have hrs : a.right_start_y = 0 := by rw [right_start_y_eq, htd]
  have hre : a.right_end_y = a.h := by rw [right_end_y_eq, hbd, add_zero]
  simp only [FO.rightSeg, hf, Bool.false_eq_true, if_false, hrs, hre]
  congr 1
  · by_cases h0 : i = 0
    · subst h0
      simp
    · simp [h0]
  · congr 1
    by_cases hlast : i = a.nh - 1
    · subst hlast
      rw [if_pos rfl]
      have : ((a.nh - 1 + 1 : ℕ) : ℚ) = (a.nh : ℚ) := by
        congr 1
        omega
      rw [this, nh_mul_fwh]
    · rw [if_neg hlast]
      push_cast
      ring

/-- Flat bottom edge: iteration `i` emits the two segment endpoints. -/
theorem botSeg_flat (a : FO) (hb : a.bottom = Mode.flat) (i : ℕ) :
    a.botSeg i = [(a.w - (i : ℚ) * a.fww, a.h), (a.w - ((i + 1 : ℕ) : ℚ) * a.fww, a.h)] := by
  have hf : is_finger i a.nw a.bottom false = false := by simp [is_finger, hb]
  simp only [FO.botSeg, hf, Bool.false_eq_true, if_false]
  push_cast
  simp

/-- Flat left edge (with flat top and bottom): iteration `i` emits the two
segment endpoints. -/
theorem leftSeg_flat (a : FO) (ht : a.top = Mode.flat) (hb : a.bottom = Mode.flat)
    (hl : a.left = Mode.flat) (i : ℕ) :
    a.leftSeg i = [(0, a.h - (i : ℚ) * a.fwh), (0, a.h - ((i + 1 : ℕ) : ℚ) * a.fwh)] := by
  have h3 : 3 ≤ a.nh := nfingers_ge_three a.h
  have hf : is_finger i a.nh a.left a.skip_lr_ends = false := by simp [is_finger, hl]
  have htd : a.top_d_start = 0 := by
    rw [FO.top_d_start, if_neg]
    simp [is_finger, ht]
  have hbd : a.bot_d_end = 0 := by
    rw [FO.bot_d_end, if_neg]
    simp [is_finger, hb]
  have hls : a.left_start_y = a.h := by rw [left_start_y_eq, hbd, add_zero]
  have hle : a.left_end_y = 0 := by rw [left_end_y_eq, htd]
  simp only [FO.leftSeg, hf, Bool.false_eq_true, if_false, hls, hle]
  congr 1
  · by_cases h0 : i = 0
    · subst h0
      simp
    · simp [h0]
  · congr 1
    by_cases hlast : i = a.nh - 1
    · subst hlast
      rw [if_pos rfl]
      have : ((a.nh - 1 + 1 : ℕ) : ℚ) = (a.nh : ℚ) := by
        congr 1
        omega
      rw [this, nh_mul_fwh]
      ring
    · rw [if_neg hlast]
      push_cast
      ring

/-- C9 (amended): with all four edges flat and both segment widths above the
epsilon, `finger_outline` returns the clockwise rectangle boundary walk from
`(0,0)` — the four corners in order, but also every intermediate equally
spaced segment endpoint — regardless of the depth arguments and the
`skip_lr_ends` flag. It is not merely the four corner points: see the
counterexample. -/
theorem c9_flat_boundary (a : FO) (ht : a.top = Mode.flat) (hb : a.bottom = Mode.flat)
    (hl : a.left = Mode.flat) (hr : a.right = Mode.flat)
    (hfw : 1/1000 < a.fww) (hfh : 1/1000 < a.fwh) :
    finger_outline a = flatBoundary a.w a.h := by
  have h3w : 3 ≤ a.nw := nfingers_ge_three a.w
  have h3h : 3 ≤ a.nh := nfingers_ge_three a.h
  set pT : ℕ → Pt := fun j => ((j : ℚ) * a.fww, 0) with hpT
  set qR : ℕ → Pt := fun j => (a.w, (j : ℚ) * a.fwh) with hqR
  set pB : ℕ → Pt := fun j => (a.w - (j : ℚ) * a.fww, a.h) with hpB
  set qL : ℕ → Pt := fun j => (0, a.h - (j : ℚ) * a.fwh) with hqL
  have hfarT : ∀ i, farB (pT (i + 1)) (pT i) = true := by
    intro i
    simp only [hpT, farB, decide_eq_true_eq]
    left
    have he : ((i + 1 : ℕ) : ℚ) * a.fww - (i : ℚ) * a.fww = a.fww := by
      push_cast
      ring
    rw [he, abs_of_pos (by linarith : (0:ℚ) < a.fww)]
    exact hfw
  have hfarR : ∀ i, farB (qR (i + 1)) (qR i) = true := by
    intro i
    simp only [hqR, farB, decide_eq_true_eq]
    right
    have he : ((i + 1 : ℕ) : ℚ) * a.fwh - (i : ℚ) * a.fwh = a.fwh := by
      push_cast
      ring
    rw [he, abs_of_pos (by linarith : (0:ℚ) < a.fwh)]
    exact hfh
  have hfarB : ∀ i, farB (pB (i + 1)) (pB i) = true := by
    intro i
    simp only [hpB, farB, decide_eq_true_eq]
    left
    have he : a.w - ((i + 1 : ℕ) : ℚ) * a.fww - (a.w - (i : ℚ) * a.fww) = -a.fww := by
      push_cast
      ring
    rw [he, abs_neg, abs_of_pos (by linarith : (0:ℚ) < a.fww)]
    exact hfw
  have hfarL : ∀ i, farB (qL (i + 1)) (qL i) = true := by
    intro i
    simp only [hqL, farB, decide_eq_true_eq]
    right
    have he : a.h - ((i + 1 : ℕ) : ℚ) * a.fwh - (a.h - (i : ℚ) * a.fwh) = -a.fwh := by
      push_cast
      ring
    rw [he, abs_neg, abs_of_pos (by linarith : (0:ℚ) < a.fwh)]
    exact hfh
  -- the four passes are boundary walks
  have hT : a.topPts = (List.range' 0 a.nw).flatMap fun i => [pT i, pT (i + 1)] := by
    rw [FO.topPts, List.range_eq_range']
    congr 1
    funext i
    rw [topSeg_flat a ht i]
  have hR : a.rightPts = (List.range' 0 a.nh).flatMap fun i => [qR i, qR (i + 1)] := by
    rw [FO.rightPts, List.range_eq_range']
    congr 1
    funext i
    rw [rightSeg_flat a ht hb hr i]
  have hB : a.botPts = (List.range' 0 a.nw).flatMap fun i => [pB i, pB (i + 1)] := by
    rw [FO.botPts, List.range_eq_range']
    congr 1
    funext i
    rw [botSeg_flat a hb i]
  have hL : a.leftPts = (List.range' 0 a.nh).flatMap fun i => [qL i, qL (i + 1)] := by
    rw [FO.leftPts, List.range_eq_range']
    congr 1
    funext i
    rw [leftSeg_flat a ht hb hl i]
  -- corner values
  have hTn : pT a.nw = qR 0 := by
    simp only [hpT, hqR]
    rw [nw_mul_fww]
    norm_num
  have hRn : qR a.nh = pB 0 := by
    simp only [hqR, hpB]
    rw [nh_mul_fwh]
    norm_num
  have hBn : pB a.nw = qL 0 := by
    simp only [hpB, hqL]
    rw [nw_mul_fww]
    norm_num
  have hLn : qL a.nh = ((0 : ℚ), (0 : ℚ)) := by
    simp only [hqL]
    rw [nh_mul_fwh]
    norm_num
  -- head of the raw walk
  have hhead : a.rawPts.head? = some (pT 0) := by
    rw [FO.rawPts, List.head?_append_of_ne_nil, List.head?_append_of_ne_nil,
      List.head?_append_of_ne_nil, FO.topPts,
      head?_flatMap_range _ _ (by omega) (topSeg_ne_nil a 0), topSeg_flat a ht 0]
    · simp [hpT]
    · rw [FO.topPts]
      intro hc
      have := head?_flatMap_range a.topSeg a.nw (by omega) (topSeg_ne_nil a 0)
      rw [hc] at this
      rw [topSeg_flat a ht 0] at this
      simp at this
    · intro hc
      rcases List.append_eq_nil.mp hc with ⟨hc1, -⟩
      rw [FO.topPts] at hc1
      have := head?_flatMap_range a.topSeg a.nw (by omega) (topSeg_ne_nil a 0)
      rw [hc1] at this
      rw [topSeg_flat a ht 0] at this
      simp at this
    · intro hc
      rcases List.append_eq_nil.mp hc with ⟨hc1, -⟩
      rcases List.append_eq_nil.mp hc1 with ⟨hc2, -⟩
      rw [FO.topPts] at hc2
      have := head?_flatMap_range a.topSeg a.nw (by omega) (topSeg_ne_nil a 0)
      rw [hc2] at this
      rw [topSeg_flat a ht 0] at this
      simp at this
  -- assemble the cleaned list
  have hclean : cleanPts a.rawPts =
      pT 0 :: ((List.range' 1 a.nw).map pT ++ ((List.range' 1 a.nh).map qR ++
        ((List.range' 1 a.nw).map pB ++ (List.range' 1 a.nh).map qL))) := by
    rw [cleanPts_eq_of_head? hhead]
    rw [FO.rawPts, hT, hR, hB, hL]
    simp only [List.append_assoc]
    rw [show (List.range' 0 a.nw).flatMap (fun i => [pT i, pT (i + 1)]) ++
        ((List.range' 0 a.nh).flatMap (fun i => [qR i, qR (i + 1)]) ++
        ((List.range' 0 a.nw).flatMap (fun i => [pB i, pB (i + 1)]) ++
        (List.range' 0 a.nh).flatMap (fun i => [qL i, qL (i + 1)]))) =
        (List.range' 0 a.nw).flatMap (fun i => [pT i, pT (i + 1)]) ++
        ((List.range' 0 a.nh).flatMap (fun i => [qR i, qR (i + 1)]) ++
        ((List.range' 0 a.nw).flatMap (fun i => [pB i, pB (i + 1)]) ++
        ((List.range' 0 a.nh).flatMap (fun i => [qL i, qL (i + 1)]) ++ []))) from by
      simp]
    rw [cleanAux_walk_append pT hfarT _ a.nw 0]
    simp only [Nat.zero_add]
    rw [hTn, cleanAux_walk_append qR hfarR _ a.nh 0]
    simp only [Nat.zero_add]
    rw [hRn, cleanAux_walk_append pB hfarB _ a.nw 0]
    simp only [Nat.zero_add]
    rw [hBn, cleanAux_walk_append qL hfarL _ a.nh 0]
    simp [cleanAux]
  -- the closing duplicate is dropped
  obtain ⟨mh, hmh⟩ : ∃ mh, a.nh = mh + 1 := ⟨a.nh - 1, by omega⟩
  have h3w' : 3 ≤ nfingers a.w := h3w
  have h3h' : 3 ≤ nfingers a.h := h3h
  have hlastval : ((List.range' 1 a.nw).map pT ++ ((List.range' 1 a.nh).map qR ++
      ((List.range' 1 a.nw).map pB ++ (List.range' 1 a.nh).map qL))).getLastD (pT 0) =
      ((0 : ℚ), (0 : ℚ)) := by
    rw [getLastD_append_of_ne_nil _ _ _ (by simp; omega),
      getLastD_append_of_ne_nil _ _ _ (by simp; omega),
      getLastD_append_of_ne_nil _ _ _ (by simp; omega)]
    rw [hmh, getLastD_map_range']
    rw [show 1 + mh = a.nh from by omega, hLn]
  rw [finger_outline, hclean, dropClosing]
  rw [if_pos]
  · -- drop the last element of the assembled walk
    have hsplit : (List.range' 1 a.nh).map qL =
        (List.range' 1 mh).map qL ++ [qL a.nh] := by
      rw [hmh, List.range'_concat, List.map_append]
      simp only [List.map_cons, List.map_nil]
      rw [show 1 + 1 * mh = mh + 1 from by omega]
    rw [hsplit]
    rw [show pT 0 :: ((List.range' 1 a.nw).map pT ++ ((List.range' 1 a.nh).map qR ++
        ((List.range' 1 a.nw).map pB ++ ((List.range' 1 mh).map qL ++ [qL a.nh])))) =
        (pT 0 :: ((List.range' 1 a.nw).map pT ++ ((List.range' 1 a.nh).map qR ++
        ((List.range' 1 a.nw).map pB ++ (List.range' 1 mh).map qL)))) ++ [qL a.nh] from by
      simp]
    rw [List.dropLast_concat]
    rw [flatBoundary]
    have hnheq : a.nh = nfingers a.h := rfl
    have hmh' : mh = nfingers a.h - 1 := by omega
    simp only [hpT, hqR, hpB, hqL, FO.fww, FO.fwh, FO.nw, FO.nh, hmh',
      List.append_assoc, Nat.cast_zero, zero_mul]
  · refine ⟨by
      simp only [List.length_cons, List.length_append, List.length_map,
        List.length_range']
      omega, ?_, ?_⟩
    · rw [List.getLastD_cons, hlastval]
      simp [hpT]
    · rw [List.getLastD_cons, hlastval]
      simp [hpT]

/-- C9 counterexample: the all-flat 36 × 36 outline is a 12-point boundary
walk, not the bare four-corner list. -/
theorem c9_counterexample :
    (1/1000 : ℚ) < 36 ∧
    finger_outline (FO.mk 36 36 Mode.flat Mode.flat Mode.flat Mode.flat T_WALL
      none none none false) ≠ [(0, 0), (36, 0), (36, 36), (0, 36)] := by
  have hn : nfingers 36 = 3 := by
    norm_num [nfingers, pyRound, FINGER_WIDTH]
    decide
  refine ⟨by norm_num, ?_⟩
  have heq : finger_outline (FO.mk 36 36 Mode.flat Mode.flat Mode.flat Mode.flat T_WALL
      none none none false) =
      [(0, 0), (12, 0), (24, 0), (36, 0), (36, 12), (36, 24), (36, 36), (24, 36),
       (12, 36), (0, 36), (0, 24), (0, 12)] := by
    norm_num [finger_outline, FO.rawPts, FO.topPts, FO.rightPts, FO.botPts, FO.leftPts,
      FO.topSeg, FO.rightSeg, FO.botSeg, FO.leftSeg, FO.nw, FO.nh, hn, FO.fww, FO.fwh,
      FO.top_d, FO.bot_d_start, FO.bot_d_end, FO.top_d_start, FO.right_start_y,
      FO.right_end_y, FO.left_start_y, FO.left_end_y, FO.topD, FO.botD, FO.lrD,
      is_finger, sdepth, List.range_succ, cleanPts, cleanAux, farB, dropClosing,
      List.getLastD, T_WALL]
  rw [heq]
  intro hcontra
  have := congrArg List.length hcontra
  simp at this

/-- Witness for C9 at the all-flat 36 × 36 panel. -/
theorem c9_flat_boundary_witness :
    finger_outline (FO.mk 36 36 Mode.flat Mode.flat Mode.flat Mode.flat T_WALL
      none none none false) = flatBoundary 36 36 := by
  have hn : nfingers 36 = 3 := by
    norm_num [nfingers, pyRound, FINGER_WIDTH]
    decide
  have hfw : (1/1000 : ℚ) < (FO.mk 36 36 Mode.flat Mode.flat Mode.flat Mode.flat T_WALL
      none none none false).fww := by
    rw [FO.fww, FO.nw]
    show (1/1000 : ℚ) < 36 / ((nfingers 36 : ℕ) : ℚ)
    rw [hn]
    norm_num
  have hfh : (1/1000 : ℚ) < (FO.mk 36 36 Mode.flat Mode.flat Mode.flat Mode.flat T_WALL
      none none none false).fwh := by
    rw [FO.fwh, FO.nh]
    show (1/1000 : ℚ) < 36 / ((nfingers 36 : ℕ) : ℚ)
    rw [hn]
    norm_num
  exact c9_flat_boundary _ rfl rfl rfl rfl hfw hfh

/-!
## C3 — epsilon separation of the returned polygon
-/

/-- The cleaned list has pairwise `farB` consecutive points. -/
theorem chain'_cleanPts (l : List Pt) :
    List.Chain' (fun p q => farB q p = true) (cleanPts l) := by
  cases l with
  | nil => simp [cleanPts]
  | cons p rest => exact chain'_cleanAux p rest

/-- `dropClosing` either keeps the list or drops its last point. -/
theorem dropClosing_cases (l : List Pt) :
    dropClosing l = l ∨ dropClosing l = l.dropLast := by
  cases l with
  | nil => exact Or.inl rfl
  | cons p rest =>
    rw [dropClosing]
    split
    · exact Or.inr rfl
    · exact Or.inl rfl

/-- After the closing-point pop, the first and last points of the result are
distinct whenever the result still has two or more points. -/
theorem dropClosing_head_ne_getLast (l : List Pt)
    (hch : List.Chain' (fun p q => farB q p = true) l)
    (hlen : 2 ≤ (dropClosing l).length) :
    (dropClosing l).head? ≠ (dropClosing l).getLast? := by
  cases l with
  | nil => simp [dropClosing] at hlen
  | cons p rest =>
    by_cases hc : 0 < rest.length ∧ |p.1 - ((p :: rest).getLastD p).1| < 1/1000 ∧
        |p.2 - ((p :: rest).getLastD p).2| < 1/1000
    · rw [dropClosing, if_pos hc] at hlen ⊢
      set L := (p :: rest).getLastD p with hL
      have hcons : (p :: rest) ≠ [] := by simp
      have hLeq : (p :: rest).getLast hcons = L := by
        rw [hL, List.getLastD_eq_getLast?, List.getLast?_eq_getLast _ hcons]
        rfl
      have hsplit : (p :: rest).dropLast ++ [L] = p :: rest := by
        rw [← hLeq]
        exact List.dropLast_append_getLast hcons
      have hchain2 : List.Chain' (fun p q => farB q p = true)
          ((p :: rest).dropLast ++ [L]) := by rwa [hsplit]
      rw [List.chain'_append] at hchain2
      intro hcontra
      -- the head of the trimmed list is still `p`
      have hrest : rest ≠ [] := by
        intro hr
        rw [hr] at hlen
        simp at hlen
      obtain ⟨q, t, rfl⟩ := List.exists_cons_of_ne_nil hrest
      have hhead : ((p :: q :: t).dropLast).head? = some p := by
        rw [List.dropLast_cons₂]
        rfl
      have hne : (p :: q :: t).dropLast ≠ [] := by
        rw [List.dropLast_cons₂]
        simp
      have hlast : ((p :: q :: t).dropLast).getLast? =
          some (((p :: q :: t).dropLast).getLast hne) :=
        List.getLast?_eq_getLast _ hne
      rw [hhead, hlast] at hcontra
      have hpz : ((p :: q :: t).dropLast).getLast hne = p := by
        exact (Option.some.injEq _ _ ▸ hcontra.symm : _)
      have hfarLp : farB L (((p :: q :: t).dropLast).getLast hne) = true :=
        hchain2.2.2 _ (Option.mem_def.mpr hlast) L (Option.mem_def.mpr rfl)
      rw [hpz] at hfarLp
      have h1 := hc.2.1
      have h2 := hc.2.2
      simp only [farB, decide_eq_true_eq] at hfarLp
      rcases hfarLp with hf | hf
      · rw [abs_sub_comm] at hf
        linarith
      · rw [abs_sub_comm] at hf
        linarith
    · rw [dropClosing, if_neg hc] at hlen ⊢
      intro hcontra
      have hrest : rest ≠ [] := by
        intro hr
        rw [hr] at hlen
        simp at hlen
      have hcons : (p :: rest) ≠ [] := by simp
      have hlast : (p :: rest).getLast? = some ((p :: rest).getLastD p) := by
        rw [List.getLastD_eq_getLast?, List.getLast?_eq_getLast _ hcons]
        rfl
      rw [List.head?_cons, hlast] at hcontra
      have hpL : p = (p :: rest).getLastD p := Option.some.inj hcontra
      apply hc
      refine ⟨by simpa [List.length_pos] using hrest, ?_, ?_⟩
      · rw [← hpL]
        simp
      · rw [← hpL]
        simp

/-- C3 (amended): for every rectangle and edge-mode assignment, no two
consecutive returned points lie within the 0.001 epsilon of each other in
both coordinates; and whenever the returned list has at least two points its
first and last points are (exactly) distinct. The claim's stronger
first-vs-last epsilon separation fails at epsilon-scale dimensions: see the
counterexample. -/
theorem c3_separation (a : FO) (hw : 0 < a.w) (hh : 0 < a.h) :
    List.Chain' (fun p q => farB q p = true) (finger_outline a) ∧
    (2 ≤ (finger_outline a).length →
      (finger_outline a).head? ≠ (finger_outline a).getLast?) := by
  have hch := chain'_cleanPts a.rawPts
  constructor
  · rw [finger_outline]
    rcases dropClosing_cases (cleanPts a.rawPts) with hEq | hEq <;> rw [hEq]
    · exact hch
    · exact hch.init
  · intro hlen
    rw [finger_outline] at hlen ⊢
    exact dropClosing_head_ne_getLast _ hch hlen

/-- C3 counterexample: for `w = 36`, `h = 0.003` (both positive) with all
edges flat, the returned polygon's first point `(0, 0)` and last point
`(0, 0.001)` differ by at most the 0.001 epsilon in both coordinates. -/
theorem c3_counterexample :
    (0 : ℚ) < 36 ∧ (0 : ℚ) < 3/1000 ∧
    (finger_outline (FO.mk 36 (3/1000) Mode.flat Mode.flat Mode.flat Mode.flat
      T_WALL none none none false)).head? = some (0, 0) ∧
    (finger_outline (FO.mk 36 (3/1000) Mode.flat Mode.flat Mode.flat Mode.flat
      T_WALL none none none false)).getLast? = some (0, 1/1000) ∧
    |(0 : ℚ) - 0| ≤ 1/1000 ∧ |(0 : ℚ) - 1/1000| ≤ 1/1000 := by
  have hn36 : nfingers 36 = 3 := by
    norm_num [nfingers, pyRound, FINGER_WIDTH]
    decide
  have hnh : nfingers (3/1000) = 3 := by
    norm_num [nfingers, pyRound, FINGER_WIDTH]
    decide
  refine ⟨by norm_num, by norm_num, ?_, ?_, by norm_num, by norm_num [abs_le]⟩ <;>
  · norm_num [finger_outline, FO.rawPts, FO.topPts, FO.rightPts, FO.botPts, FO.leftPts,
      FO.topSeg, FO.rightSeg, FO.botSeg, FO.leftSeg, FO.nw, FO.nh, hn36, hnh, FO.fww,
      FO.fwh, FO.top_d, FO.bot_d_start, FO.bot_d_end, FO.top_d_start, FO.right_start_y,
      FO.right_end_y, FO.left_start_y, FO.left_end_y, FO.topD, FO.botD, FO.lrD,
      is_finger, sdepth, List.range_succ, cleanPts, cleanAux, farB, dropClosing,
      List.getLastD, T_WALL, abs_of_pos, abs_of_neg]

/-- Witness for C3 at the all-tab 36 × 36 panel. -/
theorem c3_separation_witness :
    List.Chain' (fun p q => farB q p = true)
      (finger_outline (FO.mk 36 36 Mode.tab Mode.tab Mode.tab Mode.tab T_WALL
        none none none false)) ∧
    (2 ≤ (finger_outline (FO.mk 36 36 Mode.tab Mode.tab Mode.tab Mode.tab T_WALL
        none none none false)).length →
      (finger_outline (FO.mk 36 36 Mode.tab Mode.tab Mode.tab Mode.tab T_WALL
        none none none false)).head? ≠
      (finger_outline (FO.mk 36 36 Mode.tab Mode.tab Mode.tab Mode.tab T_WALL
        none none none false)).getLast?) :=
  c3_separation _ (by norm_num) (by norm_num)

/-!
## C5 — parse_panel_svg with zero cut-role shapes
-/

/-- An element that is engrave-role or has no bounding box never changes the
bounding-box accumulator. -/
theorem parseStep_noncut (keep : Bool) (s : XBox) (e : Elem)
    (h : isEngrave e = true ∨ elemBBox e = none) : parseStep keep s e = s := by
  cases e with
  | text => rfl
  | rect x y w hh rx st =>
    rcases h with h | h
    · by_cases hk : keep = false <;> simp [parseStep, elemBBox, h, hk]
    · simp [elemBBox] at h
  | circle cx cy r st =>
    rcases h with h | h
    · by_cases hk : keep = false <;> simp [parseStep, elemBBox, h, hk]
    · simp [elemBBox] at h
  | path pts z st =>
    rcases h with h | h
    · by_cases hk : keep = false
      · simp [parseStep, h, hk]
      · cases hb : elemBBox (Elem.path pts z st) with
        | none => simp [parseStep, h, hk, hb]
        | some b => simp [parseStep, h, hk, hb]
    · by_cases hk : keep = false
      · by_cases he : isEngrave (Elem.path pts z st) = true
        · simp [parseStep, he, hk]
        · simp [parseStep, he, hk, h]
      · simp [parseStep, hk, h]

/-- The bounding-box fold over a document with no cut geometry is the
identity on the accumulator. -/
theorem foldl_parseStep_noncut (keep : Bool) : ∀ (doc : List Elem) (s : XBox),
    (∀ e ∈ doc, isEngrave e = true ∨ elemBBox e = none) →
    doc.foldl (parseStep keep) s = s := by
  intro doc
  induction doc with
  | nil => intro s _; rfl
  | cons e t ih =>
    intro s hmem
    rw [List.foldl_cons, parseStep_noncut keep s e (hmem e (by simp))]
    exact ih s fun x hx => hmem x (by simp [hx])

/-- C5 (amended): `parse_panel_svg` performs no emptiness check — for every
document with zero cut-role shapes (every element engrave, text, or without
geometry) and either `keep_engrave` flag, it returns content dimensions equal
to the `-inf` sentinel (the untouched `inf`/`-inf` accumulators flow through
`max_x - min_x`) instead of signaling an error. -/
theorem c5_no_cut_dims (doc : List Elem) (keep : Bool)
    (h : ∀ e ∈ doc, isEngrave e = true ∨ elemBBox e = none) :
    parse_panel_svg_dims doc keep = (XQ.ninf, XQ.ninf) := by
  rw [parse_panel_svg_dims]
  rw [foldl_parseStep_noncut keep doc xboxInit h]
  rfl

/-- C5 counterexample: a document holding a single engrave (blue) circle has
zero cut-role shapes, yet `parse_panel_svg` returns a result — the `-inf`
"bounding box" — rather than signaling an error. -/
theorem c5_counterexample :
    isEngrave (Elem.circle 5 5 2 Color.blue) = true ∧
    parse_panel_svg_dims [Elem.circle 5 5 2 Color.blue] true =
      (XQ.ninf, XQ.ninf) := by
  constructor
  · rfl
  · rfl

/-- Witness for C5 at the engrave-only document. -/
theorem c5_no_cut_dims_witness :
    parse_panel_svg_dims [Elem.circle 5 5 2 Color.blue] true =
      (XQ.ninf, XQ.ninf) :=
  c5_no_cut_dims [Elem.circle 5 5 2 Color.blue] true
    (fun e he => by
      rw [List.mem_singleton] at he
      subst he
      exact Or.inl rfl)

/-!
## C6 — engrave noninterference of the bounding box
-/

/-- C6: inserting an engrave-role element anywhere in a document never
changes the `content_width`/`content_height` returned by `parse_panel_svg`,
for either `keep_engrave` flag — even when the engrave shape extends beyond
the cut-role extent. -/
theorem c6_engrave_noninterference (l1 l2 : List Elem) (e : Elem) (keep : Bool)
    (h : isEngrave e = true) :
    parse_panel_svg_dims (l1 ++ e :: l2) keep = parse_panel_svg_dims (l1 ++ l2) keep := by
  rw [parse_panel_svg_dims, parse_panel_svg_dims, List.foldl_append, List.foldl_append,
    List.foldl_cons, parseStep_noncut keep _ e (Or.inl h)]

/-- Witness for C6: a huge blue circle inserted after a red rect leaves the
dimensions unchanged. -/
theorem c6_engrave_noninterference_witness :
    parse_panel_svg_dims ([Elem.rect 0 0 10 5 0 Color.red] ++
      Elem.circle 100 100 50 Color.blue :: []) true =
    parse_panel_svg_dims ([Elem.rect 0 0 10 5 0 Color.red] ++ []) true :=
  c6_engrave_noninterference [Elem.rect 0 0 10 5 0 Color.red] []
    (Elem.circle 100 100 50 Color.blue) true rfl

/-!
## C7 — DXF closed LWPOLYLINE vertex count
-/

/-- C7 (code bug): the LWPOLYLINE writer of `svg_to_dxf` emits the group-90
count field from `len(pts)` before removing the duplicate closing point, so
for every closed polyline the count field exceeds the number of vertex
records actually written by one; concretely, a single red rect produces a
closed LWPOLYLINE with count field 5 but only 4 vertex records. -/
theorem c7_closed_count_bug :
    (∀ pts : List Pt, closedChk pts = true →
      (writeLW pts).1 = (writeLW pts).2.2.length + 1) ∧
    svg_to_dxf 384 [Elem.rect 0 0 10 5 0 Color.red] =
      [DxfRecord.lw Layer.cut 5 1 [(0, 384), (10, 384), (10, 379), (0, 379)]] ∧
    (5 : ℕ) ≠ 4 := by
  refine ⟨?_, ?_, by norm_num⟩
  · intro pts h
    rw [writeLW, if_pos h]
    have hlen : 2 < pts.length := by
      cases pts with
      | nil => simp [closedChk] at h
      | cons p rest =>
        rw [closedChk] at h
        simp only [Bool.and_eq_true, decide_eq_true_eq] at h
        exact h.1.1
    simp only [List.length_dropLast]
    omega
  · have hlay : elemLayer (Elem.rect 0 0 10 5 0 Color.red) = Layer.cut := rfl
    norm_num [svg_to_dxf, dxfEntitiesOf, writeEntity, writeLW, closedChk, hlay,
      flipY, List.getLastD, abs_of_pos, abs_of_neg, List.flatMap_cons, List.flatMap_nil]

/-!
## C8 — rotation round-trips
-/

/-- `pyRound` of an integer is that integer. -/
theorem pyRound_intCast (z : ℤ) : pyRound ((z : ℤ) : ℚ) = z := by
  rw [pyRound]
  norm_num

/-- `r3` fixes every grid rational. -/
theorem r3_eq_self {q : ℚ} (h : onGrid q) : r3 q = q := by
  obtain ⟨z, hz⟩ := h
  rw [r3, hz, pyRound_intCast, ← hz]
  ring

/-- The grid is closed under subtraction. -/
theorem onGrid_sub {a b : ℚ} (ha : onGrid a) (hb : onGrid b) : onGrid (a - b) := by
  obtain ⟨za, hza⟩ := ha
  obtain ⟨zb, hzb⟩ := hb
  exact ⟨za - zb, by push_cast; rw [mul_sub, hza, hzb]⟩

/-- Grid-pointwise round trip of the 180° path-coordinate map. -/
theorem path180_pointwise (w h : ℚ) (hw : onGrid w) (hh : onGrid h) (p : Pt)
    (hp : onGrid p.1 ∧ onGrid p.2) :
    ((r3 (w - r3 (w - p.1)), r3 (h - r3 (h - p.2))) : Pt) = p := by
  simp only [r3_eq_self (onGrid_sub hw hp.1), r3_eq_self (onGrid_sub hh hp.2),
    show w - (w - p.1) = p.1 from by ring, show h - (h - p.2) = p.2 from by ring,
    r3_eq_self hp.1, r3_eq_self hp.2]

/-- Grid-pointwise round trip of the four 90° path-coordinate maps. -/
theorem path90_pointwise (w h : ℚ) (hw : onGrid w) (hh : onGrid h) (p : Pt)
    (hp : onGrid p.1 ∧ onGrid p.2) :
    ((r3 (w - r3 (r3 (w - r3 p.1))), r3 (r3 (h - r3 (r3 (h - p.2))))) : Pt) = p := by
  simp only [r3_eq_self hp.1, r3_eq_self hp.2, r3_eq_self (onGrid_sub hw hp.1),
    r3_eq_self (onGrid_sub hh hp.2), show w - (w - p.1) = p.1 from by ring,
    show h - (h - p.2) = p.2 from by ring]

/-- Round trip of one element under 180° twice. -/
theorem rot180_twice_single (w h : ℚ) (hw : onGrid w) (hh : onGrid h) (e : Elem)
    (he : elemOnGrid e) :
    rotate_elements_180 (rotate_elements_180 [e] w h) w h = [e] := by
  cases e with
  | rect x y rw rh rx s =>
    simp only [rotate_elements_180, List.map_cons, List.map_nil, List.cons.injEq,
      Elem.rect.injEq, and_true]
    constructor <;> ring
  | circle cx cy r s =>
    simp only [rotate_elements_180, List.map_cons, List.map_nil, List.cons.injEq,
      Elem.circle.injEq, and_true]
    constructor <;> ring
  | text => rfl
  | path pts z s =>
    simp only [rotate_elements_180, List.map_cons, List.map_nil, List.map_map,
      List.cons.injEq, Elem.path.injEq, and_true]
    have hgrid : ∀ p ∈ pts, onGrid p.1 ∧ onGrid p.2 := he
    clear he
    induction pts with
    | nil => rfl
    | cons p t ih =>
      rw [List.map_cons]
      congr 1
      · exact path180_pointwise w h hw hh p (hgrid p (by simp))
      · exact ih fun q hq => hgrid q (by simp [hq])

/-- Round trip of one element under 90° four times. -/
theorem rot90_four_single (w h : ℚ) (hw : onGrid w) (hh : onGrid h) (e : Elem)
    (he : elemOnGrid e) :
    rotate_elements_90cw (rotate_elements_90cw (rotate_elements_90cw
      (rotate_elements_90cw [e] w h) h w) w h) h w = [e] := by
  cases e with
  | rect x y rw rh rx s =>
    simp only [rotate_elements_90cw, List.map_cons, List.map_nil, List.cons.injEq,
      Elem.rect.injEq, and_true]
    constructor <;> ring
  | circle cx cy r s =>
    simp only [rotate_elements_90cw, List.map_cons, List.map_nil, List.cons.injEq,
      Elem.circle.injEq, and_true]
    constructor <;> ring
  | text => rfl
  | path pts z s =>
    simp only [rotate_elements_90cw, List.map_cons, List.map_nil, List.map_map,
      List.cons.injEq, Elem.path.injEq, and_true]
    have hgrid : ∀ p ∈ pts, onGrid p.1 ∧ onGrid p.2 := he
    clear he
    induction pts with
    | nil => rfl
    | cons p t ih =>
      rw [List.map_cons]
      congr 1
      · exact path90_pointwise w h hw hh p (hgrid p (by simp))
      · exact ih fun q hq => hgrid q (by simp [hq])

/-- The rotation operators distribute over append (they are maps). -/
theorem rot180_append (l1 l2 : List Elem) (ow oh : ℚ) :
    rotate_elements_180 (l1 ++ l2) ow oh =
      rotate_elements_180 l1 ow oh ++ rotate_elements_180 l2 ow oh := by
  simp [rotate_elements_180]

/-- The 90° rotation distributes over append. -/
theorem rot90_append (l1 l2 : List Elem) (ow oh : ℚ) :
    rotate_elements_90cw (l1 ++ l2) ow oh =
      rotate_elements_90cw l1 ow oh ++ rotate_elements_90cw l2 ow oh := by
  simp [rotate_elements_90cw]

/-- C8: with the bounding box and all path coordinates on the three-decimal
grid that the SVG formatter produces, `rotate_180` applied twice returns
every element to its original value exactly, and `rotate_90_cw` applied four
times (swapping the passed width/height each time) does too — which in
particular is a round trip within any floating-point tolerance. -/
theorem c8_rotation_roundtrip (els : List Elem) (w h : ℚ)
    (hw : onGrid w) (hh : onGrid h) (hels : ∀ e ∈ els, elemOnGrid e) :
    rotate_elements_180 (rotate_elements_180 els w h) w h = els ∧
    rotate_elements_90cw (rotate_elements_90cw (rotate_elements_90cw
      (rotate_elements_90cw els w h) h w) w h) h w = els := by
  induction els with
  | nil => exact ⟨rfl, rfl⟩
  | cons e t ih =>
    obtain ⟨ih1, ih2⟩ := ih fun x hx => hels x (by simp [hx])
    have he : elemOnGrid e := hels e (by simp)
    constructor
    · rw [show e :: t = [e] ++ t from rfl, rot180_append, rot180_append,
        rot180_twice_single w h hw hh e he, ih1]
    · rw [show e :: t = [e] ++ t from rfl, rot90_append, rot90_append, rot90_append,
        rot90_append, rot90_four_single w h hw hh e he, ih2]

/-- Witness for C7: a concrete closed triangle-with-duplicate point list
shows the count field exceeding the written vertex count. -/
theorem c7_closed_count_bug_witness :
    (writeLW [((0:ℚ), (0:ℚ)), (3, 0), (0, 4), (0, 0)]).1 =
      (writeLW [((0:ℚ), (0:ℚ)), (3, 0), (0, 4), (0, 0)]).2.2.length + 1 :=
  c7_closed_count_bug.1 [((0:ℚ), (0:ℚ)), (3, 0), (0, 4), (0, 0)]
    (by norm_num [closedChk, List.getLastD])

/-- Witness for C8 at a two-element document on the grid. -/
theorem c8_rotation_roundtrip_witness :
    rotate_elements_180 (rotate_elements_180
      [Elem.path [(1, 2)] false Color.red, Elem.circle 3 4 1 Color.blue] 10 5) 10 5 =
      [Elem.path [(1, 2)] false Color.red, Elem.circle 3 4 1 Color.blue] ∧
    rotate_elements_90cw (rotate_elements_90cw (rotate_elements_90cw
      (rotate_elements_90cw [Elem.path [(1, 2)] false Color.red,
        Elem.circle 3 4 1 Color.blue] 10 5) 5 10) 10 5) 5 10 =
      [Elem.path [(1, 2)] false Color.red, Elem.circle 3 4 1 Color.blue] :=
  c8_rotation_roundtrip
    [Elem.path [(1, 2)] false Color.red, Elem.circle 3 4 1 Color.blue] 10 5
    ⟨10000, by norm_num⟩ ⟨5000, by norm_num⟩
    (by
      intro e he
      rcases List.mem_cons.mp he with rfl | he2
      · intro p hp
        rw [List.mem_singleton] at hp
        subst hp
        exact ⟨⟨1000, by norm_num⟩, ⟨2000, by norm_num⟩⟩
      · rw [List.mem_singleton] at he2
        subst he2
        trivial)

/-- Witness for C2 at `L = 120`. -/
theorem c2_finger_segmentation_witness :
    (0 : ℚ) < 120 ∧
    ((Odd (nfingers 120) ∧ 3 ≤ nfingers 120) ∧
    (∀ (m : Mode) (sk : Bool) (i n : ℕ), i % 2 = 1 → is_finger i n m sk = false) ∧
    (∀ (m : Mode) (i n : ℕ), m ≠ Mode.flat → i % 2 = 0 →
      is_finger i n m false = true) ∧
    nfingers 120 = 11) :=
  ⟨by norm_num, c2_finger_segmentation 120 (by norm_num)⟩

end PiNas
